import Mathlib

/-!
Verification of the goroutine pool in util/goroutine_pool/gp.go.

The development has two layers.

The pointer layer embeds the Go data structures directly: a `Pool` holds the
sentinel's next pointer (`pool.head.next`), the tail pointer (`none` stands
for the sentinel `&pool.head`), the `count`, and the worker structs, addressed
by natural-number identifiers standing for heap addresses.  The operations
`Pool.get`, `Pool.put` and `Pool.alloc` are line-by-line translations of the
Go functions; `get` and `put` additionally return the list of primitive events
they perform (lock, unlock, pointer writes, status store) in program order, so
that claims about what happens while the lock is held can be settled.

The concurrency layer is a small-step transition system `Step` over a global
state `Sys` describing the interleaved execution of submitter tasks running
`Pool.Go` and of the per-worker background loops spawned by `Pool.alloc`.
Each constructor of `Step` is one atomic action of the Go code: the free-list
pop and append are atomic because they run entirely under `pool.Mutex`; the
status operations (`CompareAndSwapInt32`, `LoadInt32`, and the two plain
stores) are single machine words.  The free list is carried as the abstract
list of linked workers; the pointer-layer theorems `get_repr` and `put_repr`
prove that the linked-list code implements exactly head-pop and tail-append
on that abstraction.
-/

namespace Gp

/-- Pointwise function update, used for worker tables and per-id state. -/
def upd {α : Type} (f : Nat → α) (k : Nat) (v : α) : Nat → α :=
  fun i => if i = k then v else f i

/-- Worker status constant: `statusIdle int32 = 0` in gp.go. -/
def statusIdle : Int := 0

/-- Worker status constant: `statusInUse int32 = 1` in gp.go. -/
def statusInUse : Int := 1

/-- Worker status constant: `statusDying int32 = 2` in gp.go. -/
def statusDying : Int := 2

/-- Worker status constant: `statusDead int32 = 3` in gp.go. -/
def statusDead : Int := 3

/-- The `goroutine` struct of gp.go.  `ch` records that the handoff channel
has been made, `next` is the intrusive free-list link (`none` = nil),
`status` is the atomic status word, and `spawned` records that the background
loop has been started with `go func`.  The `pool` back reference is constant
in a single-pool model and is omitted. -/
structure goroutine where
  ch : Bool
  next : Option Nat
  status : Int
  spawned : Bool
deriving DecidableEq

/-- The `Pool` struct of gp.go.  `headNext` is `pool.head.next` (the sentinel
worker `pool.head` has no other used field); `tail = none` represents
`pool.tail = &pool.head`.  `workers` maps identifiers (heap addresses) to
worker structs and `nextId` is the next fresh identifier, so identifiers
`≥ nextId` denote not-yet-allocated workers. -/
structure Pool where
  headNext : Option Nat
  tail : Option Nat
  count : Int
  idleTimeout : Nat
  workers : Nat → goroutine
  nextId : Nat

/-- Primitive memory events of `get` and `put`, in program order. -/
inductive Ev where
  | lock
  | unlock
  | popHead (g : Nat)
  | clearNext (g : Nat)
  | linkTail (g : Nat)
  | setIdle (g : Nat)
  | allocWorker (g : Nat)
deriving DecidableEq

/-- In `tr`, some occurrence of `a` is followed (not necessarily adjacently)
by an occurrence of `b`: the first `a` has a later `b`. -/
def ordBefore (a b : Ev) : List Ev → Bool
  | [] => false
  | e :: es => if e = a then decide (b ∈ es) else ordBefore a b es

/-- Write a worker's `next` field. -/
def setNext (W : Nat → goroutine) (k : Nat) (v : Option Nat) : Nat → goroutine :=
  upd W k { W k with next := v }

/-- Write a worker's `status` field. -/
def setStatus (W : Nat → goroutine) (k : Nat) (v : Int) : Nat → goroutine :=
  upd W k { W k with status := v }

/-- `New(idleTimeout)` of gp.go: empty pool, `pool.tail = &pool.head`. -/
def Pool.New (idleTimeout : Nat) : Pool :=
  { headNext := none
    tail := none
    count := 0
    idleTimeout := idleTimeout
    workers := fun _ => { ch := false, next := none, status := statusIdle, spawned := false }
    nextId := 0 }

/-- `pool.alloc()` of gp.go: create a fresh `goroutine` struct with a made
channel and a spawned background loop, and return it.  The struct literal
leaves `status` at the int32 zero value, which is `statusIdle`; `next` is the
nil zero value.  The free-list fields of the pool are untouched. -/
def Pool.alloc (s : Pool) : Pool × Nat :=
  ({ s with
      workers := upd s.workers s.nextId
        { ch := true, next := none, status := statusIdle, spawned := true }
      nextId := s.nextId + 1 },
   s.nextId)

/-- `pool.get()` of gp.go.  Under the lock: if `head.next == nil`, unlock and
fall back to `alloc`; otherwise `ret := head.next`, `head.next = ret.next`,
`if ret == pool.tail { pool.tail = head }`, `pool.count--`, unlock, and only
then `ret.next = nil`.  The third component is the event trace in program
order. -/
def Pool.get (s : Pool) : Pool × Nat × List Ev :=
  match s.headNext with
  | none =>
      let a := Pool.alloc s
      (a.1, a.2, [Ev.lock, Ev.unlock, Ev.allocWorker s.nextId])
  | some ret =>
      let s1 : Pool :=
        { s with
            headNext := (s.workers ret).next
            tail := if s.tail = some ret then none else s.tail
            count := s.count - 1 }
      ({ s1 with workers := setNext s1.workers ret none },
       ret,
       [Ev.lock, Ev.popHead ret, Ev.unlock, Ev.clearNext ret])

/-- `pool.put(p)` of gp.go: `p.next = nil`, lock, `pool.tail.next = p`
(writing `head.next` when the tail is the sentinel), `pool.tail = p`,
`pool.count++`, `p.status = statusIdle` (a plain store, not a CAS), unlock. -/
def Pool.put (s : Pool) (p : Nat) : Pool × List Ev :=
  let W1 := setNext s.workers p none
  let s2 : Pool :=
    match s.tail with
    | none => { s with workers := W1, headNext := some p }
    | some t => { s with workers := setNext W1 t (some p) }
  ({ s2 with
      tail := some p
      count := s.count + 1
      workers := setStatus s2.workers p statusIdle },
   [Ev.clearNext p, Ev.lock, Ev.linkTail p, Ev.setIdle p, Ev.unlock])

/-- The chain of `next` pointers starting at `p` passes exactly through the
worker identifiers in `l` and ends at nil. -/
def chainB (W : Nat → goroutine) : Option Nat → List Nat → Bool
  | p, [] => p == none
  | p, x :: xs => p == some x && chainB W (W x).next xs

/-- The free list of `s` is exactly `l`: the sentinel's `next` chains through
`l`, the tail pointer is the last element (the sentinel when empty), and
`count` is the length. -/
def reprB (s : Pool) (l : List Nat) : Bool :=
  chainB s.workers s.headNext l && (s.tail == l.getLast?) && (s.count == (l.length : Int))

/-- Abstract free-list operations for the FIFO claim: a `put` of a worker or
a `get`. -/
inductive QOp where
  | put (p : Nat)
  | get
deriving DecidableEq

/-- Run a sequence of `put`/`get` operations on a pool, collecting the worker
each `get` hands out, in order. -/
def runPool : Pool → List QOp → Pool × List Nat
  | s, [] => (s, [])
  | s, QOp.put p :: ops => runPool (Pool.put s p).1 ops
  | s, QOp.get :: ops =>
      let r := Pool.get s
      let q := runPool r.1 ops
      (q.1, r.2.1 :: q.2)

/-- Run the same operations on an abstract FIFO queue: `put` appends at the
tail, `get` removes at the head. -/
def runQueue : List Nat → List QOp → List Nat × List Nat
  | l, [] => (l, [])
  | l, QOp.put p :: ops => runQueue (l ++ [p]) ops
  | l, QOp.get :: ops =>
      match l with
      | [] => ([], [])
      | x :: xs =>
          let q := runQueue xs ops
          (q.1, x :: q.2)

/-- Side conditions for the FIFO claim: every `get` finds a nonempty list (no
intervening allocation) and every `put` hands back a worker not currently
linked. -/
def validOps : List Nat → List QOp → Bool
  | _, [] => true
  | l, QOp.put p :: ops => !(decide (p ∈ l)) && validOps (l ++ [p]) ops
  | l, QOp.get :: ops =>
      match l with
      | [] => false
      | _ :: xs => validOps xs ops

/-- State of one worker's background loop (the closure spawned in `alloc`):
not yet spawned, blocked in the `select`, executing a received work item, or
returned. -/
inductive LoopSt where
  | notStarted
  | waiting
  | running (sid : Nat)
  | exited
deriving DecidableEq

/-- Program counter of one submitter task running `pool.Go(f)`, identified by
its work item `sid`: about to call `get`; holding the worker returned by
`get`, about to CAS; in the `status == statusDying` check after a failed CAS;
having claimed the worker, about to send on its channel; or returned. -/
inductive SubSt where
  | start
  | holding (g : Nat)
  | checking (g : Nat)
  | claimed (g : Nat)
  | done
deriving DecidableEq

/-- Labels naming the atomic actions of the interleaved system. -/
inductive Label where
  | submit (sid : Nat)
  | getPop (sid g : Nat)
  | getAlloc (sid g : Nat)
  | casOk (sid g : Nat)
  | casFail (sid g : Nat)
  | storeDead (sid g : Nat)
  | skipDead (sid g : Nat)
  | handoff (sid g : Nat)
  | finish (g sid : Nat)
  | timerOk (g : Nat)
  | timerFail (g : Nat)
deriving DecidableEq

/-- Global state of the interleaved system: the pool's free list (abstractly,
the list of linked workers from head to tail — `get_repr`/`put_repr` prove
the pointer code implements head-pop/tail-append on it), each worker's status
word and loop state, the next fresh worker identifier, the state of each
submitted work item, and how many times each work item has been executed. -/
structure Sys where
  freeList : List Nat
  status : Nat → Int
  loop : Nat → LoopSt
  nextId : Nat
  subs : Nat → Option SubSt
  execCount : Nat → Nat

/-- The state of a pool fresh from `New`: no workers, no submissions. -/
def init : Sys :=
  { freeList := []
    status := fun _ => statusIdle
    loop := fun _ => LoopSt.notStarted
    nextId := 0
    subs := fun _ => none
    execCount := fun _ => 0 }

/-- One atomic action of the interleaved system.  Submitter actions follow
`Pool.Go`; worker actions follow the loop body in `Pool.alloc`.

* `submit`: a new call `pool.Go(f)` begins; its work item is `sid`.
* `getPop`: `pool.get()` pops the worker after the sentinel (lock-atomic).
* `getAlloc`: the list is empty, `get` falls through to `alloc`, which hands
  the submitter a fresh worker with zero-value (`Idle`) status and a freshly
  spawned loop.
* `casOk`: `CompareAndSwapInt32(&g.status, statusIdle, statusInUse)` succeeds.
* `casFail`: the CAS fails; `Go` falls into the dying check.
* `storeDead`: `LoadInt32(&g.status) == statusDying`, so the plain store
  `g.status = statusDead` runs; the `for` loop retries from `get`.
* `skipDead`: the load sees a status other than `statusDying`; the loop
  retries anyway (dead branch in practice, kept for fidelity).
* `handoff`: `g.ch <- f` pairs with the loop's `case work := <-g.ch`; `Go`
  returns, the worker starts running the work item.
* `finish`: `work()` returns and the worker calls `pool.put(g)`, which links
  it at the tail and stores `statusIdle`; the loop re-arms the timer and
  waits again.
* `timerOk`: `case <-timer.C` fires and
  `CompareAndSwapInt32(&g.status, statusIdle, statusDying)` succeeds: the
  loop returns.
* `timerFail`: the timer fires but the CAS fails; the loop re-arms the timer
  and keeps waiting, leaving the state unchanged. -/
inductive Step : Sys → Label → Sys → Prop where
  | submit (s : Sys) (sid : Nat)
      (h : s.subs sid = none) :
      Step s (Label.submit sid) { s with subs := upd s.subs sid (some SubSt.start) }
  | getPop (s : Sys) (sid g : Nat) (rest : List Nat)
      (hs : s.subs sid = some SubSt.start) (hl : s.freeList = g :: rest) :
      Step s (Label.getPop sid g)
        { s with freeList := rest, subs := upd s.subs sid (some (SubSt.holding g)) }
  | getAlloc (s : Sys) (sid : Nat)
      (hs : s.subs sid = some SubSt.start) (hl : s.freeList = [])
      (hf : s.loop s.nextId = LoopSt.notStarted) :
      Step s (Label.getAlloc sid s.nextId)
        { s with nextId := s.nextId + 1
                 status := upd s.status s.nextId statusIdle
                 loop := upd s.loop s.nextId LoopSt.waiting
                 subs := upd s.subs sid (some (SubSt.holding s.nextId)) }
  | casOk (s : Sys) (sid g : Nat)
      (hs : s.subs sid = some (SubSt.holding g)) (hg : s.status g = statusIdle) :
      Step s (Label.casOk sid g)
        { s with status := upd s.status g statusInUse
                 subs := upd s.subs sid (some (SubSt.claimed g)) }
  | casFail (s : Sys) (sid g : Nat)
      (hs : s.subs sid = some (SubSt.holding g)) (hg : s.status g ≠ statusIdle) :
      Step s (Label.casFail sid g)
        { s with subs := upd s.subs sid (some (SubSt.checking g)) }
  | storeDead (s : Sys) (sid g : Nat)
      (hs : s.subs sid = some (SubSt.checking g)) (hg : s.status g = statusDying) :
      Step s (Label.storeDead sid g)
        { s with status := upd s.status g statusDead
                 subs := upd s.subs sid (some SubSt.start) }
  | skipDead (s : Sys) (sid g : Nat)
      (hs : s.subs sid = some (SubSt.checking g)) (hg : s.status g ≠ statusDying) :
      Step s (Label.skipDead sid g)
        { s with subs := upd s.subs sid (some SubSt.start) }
  | handoff (s : Sys) (sid g : Nat)
      (hs : s.subs sid = some (SubSt.claimed g)) (hw : s.loop g = LoopSt.waiting) :
      Step s (Label.handoff sid g)
        { s with subs := upd s.subs sid (some SubSt.done)
                 loop := upd s.loop g (LoopSt.running sid) }
  | finish (s : Sys) (g sid : Nat)
      (hr : s.loop g = LoopSt.running sid) :
      Step s (Label.finish g sid)
        { s with execCount := upd s.execCount sid (s.execCount sid + 1)
                 status := upd s.status g statusIdle
                 freeList := s.freeList ++ [g]
                 loop := upd s.loop g LoopSt.waiting }
  | timerOk (s : Sys) (g : Nat)
      (hw : s.loop g = LoopSt.waiting) (hg : s.status g = statusIdle) :
      Step s (Label.timerOk g)
        { s with status := upd s.status g statusDying
                 loop := upd s.loop g LoopSt.exited }
  | timerFail (s : Sys) (g : Nat)
      (hw : s.loop g = LoopSt.waiting) (hg : s.status g ≠ statusIdle) :
      Step s (Label.timerFail g) s

/-- A finite run: `Trace s ls s2` performs the labelled steps `ls` in order. -/
inductive Trace : Sys → List Label → Sys → Prop where
  | nil (s : Sys) : Trace s [] s
  | cons {s s1 s2 : Sys} {l : Label} {ls : List Label}
      (h : Step s l s1) (t : Trace s1 ls s2) : Trace s (l :: ls) s2

/-- Reachable from the freshly constructed pool. -/
def Reach (s : Sys) : Prop := ∃ ls, Trace init ls s

/-- Submitter `sid` currently owns worker `g` exclusively: it popped or
allocated it and has not yet handed work to it. -/
def holdsW (s : Sys) (sid g : Nat) : Prop :=
  s.subs sid = some (SubSt.holding g) ∨ s.subs sid = some (SubSt.checking g) ∨
    s.subs sid = some (SubSt.claimed g)

/-- The inductive invariant of the interleaved system. -/
structure Inv (s : Sys) : Prop where
  list_lt : ∀ g ∈ s.freeList, g < s.nextId
  list_nd : s.freeList.Nodup
  list_st : ∀ g ∈ s.freeList, s.status g = statusIdle ∨ s.status g = statusDying
  hold_lt : ∀ sid g, holdsW s sid g → g < s.nextId
  hold_nl : ∀ sid g, holdsW s sid g → g ∉ s.freeList
  hold_uq : ∀ sid sid2 g, holdsW s sid g → holdsW s sid2 g → sid = sid2
  holding_st : ∀ sid g, s.subs sid = some (SubSt.holding g) →
    s.status g = statusIdle ∨ s.status g = statusDying
  checking_st : ∀ sid g, s.subs sid = some (SubSt.checking g) → s.status g = statusDying
  claimed_st : ∀ sid g, s.subs sid = some (SubSt.claimed g) →
    s.status g = statusInUse ∧ s.loop g = LoopSt.waiting
  idle_loc : ∀ g, g < s.nextId → s.status g = statusIdle →
    s.loop g = LoopSt.waiting ∧
      (g ∈ s.freeList ∨ ∃ sid, s.subs sid = some (SubSt.holding g))
  dying_ex : ∀ g, s.status g = statusDying → s.loop g = LoopSt.exited
  dead_ex : ∀ g, s.status g = statusDead → s.loop g = LoopSt.exited
  run_st : ∀ g sid, s.loop g = LoopSt.running sid →
    g < s.nextId ∧ s.status g = statusInUse ∧ s.subs sid = some SubSt.done
  run_uq : ∀ g g2 sid, s.loop g = LoopSt.running sid → s.loop g2 = LoopSt.running sid →
    g = g2
  done_ex : ∀ sid, s.subs sid = some SubSt.done →
    (s.execCount sid = 1 ∧ ∀ g, s.loop g ≠ LoopSt.running sid) ∨
      (s.execCount sid = 0 ∧ ∃ g, s.loop g = LoopSt.running sid)
  undone_ex : ∀ sid, s.subs sid ≠ some SubSt.done →
    s.execCount sid = 0 ∧ ∀ g, s.loop g ≠ LoopSt.running sid
  unalloc : ∀ g, s.nextId ≤ g → s.status g = statusIdle ∧ s.loop g = LoopSt.notStarted

/-- Concrete pool whose free list is `[0]`: a fresh pool after allocating
worker 0 and handing it back with `put`. -/
def sC : Pool := (Pool.put (Pool.alloc (Pool.New 5)).1 0).1

/-- Concrete pool whose free list is `[1, 2]`. -/
def sW : Pool := ((((Pool.New 5).put 1).1).put 2).1

/-- Concrete pool holding a worker at address 7 whose status is `statusDead`,
used to exhibit that `put` stores `statusIdle` without examining the prior
status. -/
def sX : Pool :=
  { Pool.New 0 with
      workers := upd (Pool.New 0).workers 7
        { ch := true, next := none, status := statusDead, spawned := true } }

/-- System state after `submit 0`: work item 0 is about to call `get`. -/
def st1 : Sys := { init with subs := upd init.subs 0 (some SubSt.start) }

/-- After `getAlloc`: the empty list made `get` allocate fresh worker 0,
held by submission 0. -/
def st2 : Sys :=
  { st1 with
      nextId := 1
      status := upd st1.status 0 statusIdle
      loop := upd st1.loop 0 LoopSt.waiting
      subs := upd st1.subs 0 (some (SubSt.holding 0)) }

/-- After `casOk`: submission 0 claimed worker 0 (`Idle` to `InUse`). -/
def st3 : Sys :=
  { st2 with
      status := upd st2.status 0 statusInUse
      subs := upd st2.subs 0 (some (SubSt.claimed 0)) }

/-- After `handoff`: `Go` returned; worker 0 is executing work item 0. -/
def st4 : Sys :=
  { st3 with
      subs := upd st3.subs 0 (some SubSt.done)
      loop := upd st3.loop 0 (LoopSt.running 0) }

/-- After `finish`: worker 0 put itself back; it is idle and linked. -/
def st5 : Sys :=
  { st4 with
      execCount := upd st4.execCount 0 (st4.execCount 0 + 1)
      status := upd st4.status 0 statusIdle
      freeList := st4.freeList ++ [0]
      loop := upd st4.loop 0 LoopSt.waiting }

/-- After `timerOk`: worker 0's idle timer won the race; its loop returned,
its status is `statusDying`, and it is still linked in the free list. -/
def st6 : Sys :=
  { st5 with
      status := upd st5.status 0 statusDying
      loop := upd st5.loop 0 LoopSt.exited }

/-- After a second `submit 1` in the dying-worker state `st6`. -/
def st7 : Sys := { st6 with subs := upd st6.subs 1 (some SubSt.start) }

/-- After `getPop`: submission 1's `get` popped the dying worker 0. -/
def st8 : Sys :=
  { st7 with freeList := [], subs := upd st7.subs 1 (some (SubSt.holding 0)) }

/-- After `casFail`: submission 1's claiming CAS failed on the dying worker. -/
def st9 : Sys := { st8 with subs := upd st8.subs 1 (some (SubSt.checking 0)) }

/-- After `storeDead`: submission 1 discarded worker 0 (now `Dead`) and its
retry loop is back at `get`. -/
def st10 : Sys :=
  { st9 with status := upd st9.status 0 statusDead
             subs := upd st9.subs 1 (some SubSt.start) }

theorem upd_self {α : Type} (f : Nat → α) (k : Nat) (v : α) : upd f k v k = v := by
  simp [upd]

theorem upd_ne {α : Type} (f : Nat → α) (k i : Nat) (v : α) (h : i ≠ k) : upd f k v i = f i := by
  simp [upd, h]

theorem chainB_congrOn (W W2 : Nat → goroutine) :
    ∀ (l : List Nat) (p0 : Option Nat), (∀ x ∈ l, (W2 x).next = (W x).next) →
      chainB W2 p0 l = chainB W p0 l := by
  intro l
  induction l with
  | nil => intro p0 _; rfl
  | cons x xs ih =>
      intro p0 h
      simp only [chainB]
      rw [h x (List.mem_cons_self x xs), ih ((W x).next) (fun y hy => h y (List.mem_cons_of_mem x hy))]

theorem chainB_cons (W : Nat → goroutine) (p0 : Option Nat) (x : Nat) (xs : List Nat)
    (h : chainB W p0 (x :: xs) = true) :
    p0 = some x ∧ chainB W (W x).next xs = true := by
  simp only [chainB, Bool.and_eq_true, beq_iff_eq] at h
  exact h

theorem getLast?_mem_of_eq {l : List Nat} {t : Nat} (h : l.getLast? = some t) : t ∈ l := by
  have hm : t ∈ l.getLast? := by rw [h]; rfl
  obtain ⟨hne, heq⟩ := List.mem_getLast?_eq_getLast hm
  rw [heq]
  exact List.getLast_mem hne

theorem chainB_cons_iff (W : Nat → goroutine) (p0 : Option Nat) (x : Nat) (xs : List Nat) :
    chainB W p0 (x :: xs) = true ↔ p0 = some x ∧ chainB W (W x).next xs = true := by
  simp only [chainB, Bool.and_eq_true, beq_iff_eq]

theorem chainB_snoc (W : Nat → goroutine) (p t : Nat) :
    ∀ (l : List Nat) (p0 : Option Nat), l.Nodup → p ∉ l → l.getLast? = some t →
      chainB W p0 l = true →
      chainB (setStatus (setNext (setNext W p none) t (some p)) p statusIdle) p0 (l ++ [p])
        = true := by
  intro l
  induction l with
  | nil => intro p0 _ _ hlast _; simp at hlast
  | cons x xs ih =>
      intro p0 hnd hp hlast hch
      obtain ⟨hp0, hch2⟩ := chainB_cons W p0 x xs hch
      have hxp : x ≠ p := fun h => hp (h ▸ List.mem_cons_self x xs)
      cases xs with
      | nil =>
          have hxt : x = t := by simpa using hlast
          subst hxt
          subst hp0
          have h1 : (setStatus (setNext (setNext W p none) x (some p)) p statusIdle x).next
              = some p := by
            rw [setStatus, upd_ne _ _ _ _ hxp, setNext, upd_self]
          have h2 : (setStatus (setNext (setNext W p none) x (some p)) p statusIdle p).next
              = none := by
            rw [setStatus, upd_self]
            show (setNext (setNext W p none) x (some p) p).next = none
            rw [setNext, upd_ne _ _ _ _ (Ne.symm hxp), setNext, upd_self]
          show chainB _ (some x) [x, p] = true
          rw [chainB_cons_iff]
          refine ⟨rfl, ?_⟩
          rw [h1, chainB_cons_iff]
          refine ⟨rfl, ?_⟩
          rw [h2]
          rfl
      | cons y ys =>
          have hlast2 : (y :: ys).getLast? = some t := by
            rwa [List.getLast?_cons_cons] at hlast
          have hxmem : x ∉ y :: ys := (List.nodup_cons.mp hnd).1
          have hxt : x ≠ t := fun h => hxmem (h ▸ getLast?_mem_of_eq hlast2)
          have hnext : (setStatus (setNext (setNext W p none) t (some p)) p statusIdle x).next
              = (W x).next := by
            rw [setStatus, upd_ne _ _ _ _ hxp, setNext, upd_ne _ _ _ _ hxt, setNext,
              upd_ne _ _ _ _ hxp]
          subst hp0
          rw [List.cons_append, chainB_cons_iff]
          refine ⟨rfl, ?_⟩
          rw [hnext]
          exact ih ((W x).next) (List.nodup_cons.mp hnd).2
            (fun h => hp (List.mem_cons_of_mem x h)) hlast2 hch2

theorem reprB_iff (s : Pool) (l : List Nat) :
    reprB s l = true ↔
      chainB s.workers s.headNext l = true ∧ s.tail = l.getLast? ∧
        s.count = (l.length : Int) := by
  simp only [reprB, Bool.and_eq_true, beq_iff_eq, and_assoc]

/-- `pool.put(p)` implements tail-append on the abstract free list: the
worker ends up linked last, with a cleared link and status `statusIdle`, the
tail pointer moves to it, `count` grows by one, and the event trace is the
one fixed by the program text. -/
theorem put_repr (s : Pool) (p : Nat) (l : List Nat)
    (hr : reprB s l = true) (hnd : l.Nodup) (hp : p ∉ l) :
    (Pool.put s p).1.tail = some p ∧
    (Pool.put s p).1.count = s.count + 1 ∧
    ((Pool.put s p).1.workers p).status = statusIdle ∧
    ((Pool.put s p).1.workers p).next = none ∧
    (Pool.put s p).2 = [Ev.clearNext p, Ev.lock, Ev.linkTail p, Ev.setIdle p, Ev.unlock] ∧
    reprB (Pool.put s p).1 (l ++ [p]) = true := by
  obtain ⟨hch, htl, hcnt⟩ := (reprB_iff s l).mp hr
  cases l with
  | nil =>
      have htl2 : s.tail = none := by simpa using htl
      simp only [Pool.put, htl2]
      refine ⟨True.intro, True.intro, ?_, ?_, True.intro, ?_⟩
      · rw [setStatus, upd_self]
      · rw [setStatus, upd_self]
        show (setNext s.workers p none p).next = none
        rw [setNext, upd_self]
      · rw [reprB_iff]
        refine ⟨?_, rfl, ?_⟩
        · rw [List.nil_append, chainB_cons_iff]
          refine ⟨rfl, ?_⟩
          have : (setStatus (setNext s.workers p none) p statusIdle p).next = none := by
            rw [setStatus, upd_self]
            show (setNext s.workers p none p).next = none
            rw [setNext, upd_self]
          rw [this]
          rfl
        · simp only [List.nil_append, List.length_cons, List.length_nil]
          have : s.count = 0 := by simpa using hcnt
          omega
  | cons x xs =>
      have hne : x :: xs ≠ [] := List.cons_ne_nil x xs
      set t := (x :: xs).getLast hne with ht
      have hlast : (x :: xs).getLast? = some t := List.getLast?_eq_getLast_of_ne_nil hne
      have htmem : t ∈ x :: xs := List.getLast_mem hne
      have hpt : p ≠ t := fun h => hp (h ▸ htmem)
      have htl2 : s.tail = some t := by rw [htl, hlast]
      simp only [Pool.put, htl2]
      refine ⟨True.intro, True.intro, ?_, ?_, True.intro, ?_⟩
      · rw [setStatus, upd_self]
      · rw [setStatus, upd_self]
        show (setNext (setNext s.workers p none) t (some p) p).next = none
        rw [setNext, upd_ne _ _ _ _ hpt, setNext, upd_self]
      · rw [reprB_iff]
        refine ⟨?_, ?_, ?_⟩
        · exact chainB_snoc s.workers p t (x :: xs) s.headNext hnd hp hlast hch
        · have : ((x :: xs) ++ [p]).getLast? = some p := by
            rw [List.getLast?_append_cons]
            rfl
          rw [this]
        · rw [hcnt]
          simp only [List.length_append, List.length_cons, List.length_nil]
          push_cast
          omega

/-- `pool.get()` on a nonempty free list implements head-pop: it returns the
node after the sentinel, relinks the sentinel to that node's old `next`,
resets the tail to the sentinel exactly when the popped node was the tail,
decrements `count`, clears the popped node's link, and performs the event
trace fixed by the program text. -/
theorem get_repr (s : Pool) (g : Nat) (rest : List Nat)
    (hr : reprB s (g :: rest) = true) (hnd : (g :: rest).Nodup) :
    (Pool.get s).2.1 = g ∧
    (Pool.get s).1.headNext = (s.workers g).next ∧
    (Pool.get s).1.tail = (if s.tail = some g then none else s.tail) ∧
    (Pool.get s).1.count = s.count - 1 ∧
    ((Pool.get s).1.workers g).next = none ∧
    (Pool.get s).2.2 = [Ev.lock, Ev.popHead g, Ev.unlock, Ev.clearNext g] ∧
    reprB (Pool.get s).1 rest = true := by
  obtain ⟨hch, htl, hcnt⟩ := (reprB_iff s (g :: rest)).mp hr
  obtain ⟨hhn, hch2⟩ := chainB_cons s.workers s.headNext g rest hch
  have hgmem : g ∉ rest := (List.nodup_cons.mp hnd).1
  simp only [Pool.get, hhn]
  refine ⟨True.intro, True.intro, True.intro, True.intro, ?_, True.intro, ?_⟩
  · rw [setNext, upd_self]
  · rw [reprB_iff]
    refine ⟨?_, ?_, ?_⟩
    · have hcong : ∀ x ∈ rest,
          ((setNext s.workers g none) x).next = (s.workers x).next := by
        intro x hx
        have : x ≠ g := fun h => hgmem (h ▸ hx)
        rw [setNext, upd_ne _ _ _ _ this]
      rw [chainB_congrOn s.workers _ rest ((s.workers g).next) hcong]
      exact hch2
    · cases rest with
      | nil =>
          have : s.tail = some g := by simpa using htl
          simp [this]
      | cons y ys =>
          have hlast : (y :: ys).getLast? = some ((y :: ys).getLast (List.cons_ne_nil y ys)) :=
            List.getLast?_eq_getLast_of_ne_nil (List.cons_ne_nil y ys)
          have htmem : (y :: ys).getLast (List.cons_ne_nil y ys) ∈ y :: ys :=
            List.getLast_mem (List.cons_ne_nil y ys)
          have htl2 : s.tail = some ((y :: ys).getLast (List.cons_ne_nil y ys)) := by
            rw [htl, List.getLast?_cons_cons, hlast]
          have hgne : s.tail ≠ some g := by
            rw [htl2]
            intro h
            exact hgmem (Option.some.inj h ▸ htmem)
      -- the popped node is not the tail, so the tail pointer is untouched
          rw [if_neg hgne, htl2, hlast]
    · rw [hcnt]
      simp only [List.length_cons]
      push_cast
      omega

/-- The linked-list pool refines the abstract FIFO queue: under the side
conditions that no `get` hits an empty list and every `put` hands back an
unlinked worker, a run of the pointer code hands out exactly the workers the
abstract head-pop/tail-append queue hands out, in the same order. -/
theorem fifo_refines : ∀ (ops : List QOp) (s : Pool) (l : List Nat),
    reprB s l = true → l.Nodup → validOps l ops = true →
    (runPool s ops).2 = (runQueue l ops).2 ∧
    reprB (runPool s ops).1 (runQueue l ops).1 = true ∧
    (runQueue l ops).1.Nodup := by
  intro ops
  induction ops with
  | nil => intro s l hr hnd _; exact ⟨rfl, hr, hnd⟩
  | cons op rest ih =>
      intro s l hr hnd hv
      cases op with
      | put p =>
          simp only [validOps, Bool.and_eq_true, Bool.not_eq_true',
            decide_eq_false_iff_not] at hv
          obtain ⟨hp, hv2⟩ := hv
          obtain ⟨_, _, _, _, _, hr2⟩ := put_repr s p l hr hnd hp
          have hnd2 : (l ++ [p]).Nodup := by
            rw [List.nodup_append]
            exact ⟨hnd, List.nodup_singleton p,
              fun a ha hb => hp ((List.mem_singleton.mp hb) ▸ ha)⟩
          simpa only [runPool, runQueue] using ih (Pool.put s p).1 (l ++ [p]) hr2 hnd2 hv2
      | get =>
          cases l with
          | nil => simp [validOps] at hv
          | cons x xs =>
              simp only [validOps] at hv
              obtain ⟨hret, _, _, _, _, _, hr2⟩ := get_repr s x xs hr hnd
              have hih := ih (Pool.get s).1 xs hr2 (List.nodup_cons.mp hnd).2 hv
              simp only [runPool, runQueue]
              exact ⟨by rw [hret, hih.1], hih.2.1, hih.2.2⟩

/-- `pool.alloc()` hands back a worker with `Idle` status, a made channel
and a spawned loop, leaves the free-list fields untouched, and does not link
the new worker into the free list. -/
theorem alloc_spec (s : Pool) (l : List Nat) (hr : reprB s l = true)
    (hb : ∀ x ∈ l, x < s.nextId) :
    ((Pool.alloc s).1.workers (Pool.alloc s).2).status = statusIdle ∧
    ((Pool.alloc s).1.workers (Pool.alloc s).2).ch = true ∧
    ((Pool.alloc s).1.workers (Pool.alloc s).2).spawned = true ∧
    (Pool.alloc s).1.headNext = s.headNext ∧
    (Pool.alloc s).1.tail = s.tail ∧
    (Pool.alloc s).1.count = s.count ∧
    reprB (Pool.alloc s).1 l = true ∧
    (Pool.alloc s).2 ∉ l := by
  have hnot : s.nextId ∉ l := fun h => lt_irrefl _ (hb _ h)
  obtain ⟨hch, htl, hcnt⟩ := (reprB_iff s l).mp hr
  refine ⟨?_, ?_, ?_, rfl, rfl, rfl, ?_, hnot⟩
  · show (upd s.workers s.nextId _ s.nextId).status = statusIdle
    rw [upd_self]
  · show (upd s.workers s.nextId _ s.nextId).ch = true
    rw [upd_self]
  · show (upd s.workers s.nextId _ s.nextId).spawned = true
    rw [upd_self]
  · rw [reprB_iff]
    refine ⟨?_, htl, hcnt⟩
    have hcong : ∀ x ∈ l,
        ((Pool.alloc s).1.workers x).next = (s.workers x).next := by
      intro x hx
      show (upd s.workers s.nextId _ x).next = (s.workers x).next
      have hxne : x ≠ s.nextId := by
        intro h
        rw [h] at hx
        exact hnot hx
      rw [upd_ne _ _ _ _ hxne]
    show chainB (Pool.alloc s).1.workers s.headNext l = true
    rw [chainB_congrOn s.workers _ l s.headNext hcong]
    exact hch

theorem holdsW_upd_elim {s : Sys} {sid : Nat} {v : Option SubSt} {sid2 g : Nat}
    (h : upd s.subs sid v sid2 = some (SubSt.holding g) ∨
         upd s.subs sid v sid2 = some (SubSt.checking g) ∨
         upd s.subs sid v sid2 = some (SubSt.claimed g)) :
    (sid2 = sid ∧ (v = some (SubSt.holding g) ∨ v = some (SubSt.checking g) ∨
      v = some (SubSt.claimed g))) ∨ (sid2 ≠ sid ∧ holdsW s sid2 g) := by
  by_cases hc : sid2 = sid
  · subst hc
    rw [upd_self] at h
    exact Or.inl ⟨rfl, h⟩
  · right
    refine ⟨hc, ?_⟩
    unfold holdsW
    rwa [upd_ne _ _ _ _ hc] at h

theorem holdsW_upd_intro {s : Sys} {sid : Nat} {v : Option SubSt} {sid2 g : Nat}
    (hne : sid2 ≠ sid) (h : holdsW s sid2 g) :
    upd s.subs sid v sid2 = some (SubSt.holding g) ∨
      upd s.subs sid v sid2 = some (SubSt.checking g) ∨
      upd s.subs sid v sid2 = some (SubSt.claimed g) := by
  unfold holdsW at h
  rwa [upd_ne _ _ _ _ hne]

/-- The freshly constructed pool satisfies the invariant. -/
theorem inv_init : Inv init := by
  refine ⟨?_, ?_, ?_, ?_, ?_, ?_, ?_, ?_, ?_, ?_, ?_, ?_, ?_, ?_, ?_, ?_, ?_⟩
  · intro g h; cases h
  · exact List.nodup_nil
  · intro g h; cases h
  · intro sid g h; rcases h with h | h | h <;> cases h
  · intro sid g h; rcases h with h | h | h <;> cases h
  · intro sid sid2 g h; rcases h with h | h | h <;> cases h
  · intro sid g h; cases h
  · intro sid g h; cases h
  · intro sid g h; cases h
  · intro g hlt _; exact absurd hlt (Nat.not_lt_zero g)
  · intro g h; cases h
  · intro g h; cases h
  · intro g sid h; cases h
  · intro g g2 sid h; cases h
  · intro sid h; cases h
  · intro sid _; exact ⟨rfl, fun g h => by cases h⟩
  · intro g _; exact ⟨rfl, rfl⟩

/-- `submit` preserves the invariant. -/
theorem inv_submit {s : Sys} {sid : Nat} (I : Inv s) (h : s.subs sid = none) :
    Inv { s with subs := upd s.subs sid (some SubSt.start) } := by
  refine ⟨I.list_lt, I.list_nd, I.list_st, ?_, ?_, ?_, ?_, ?_, ?_, ?_, I.dying_ex,
    I.dead_ex, ?_, I.run_uq, ?_, ?_, I.unalloc⟩
  · intro sid2 g hh
    rcases holdsW_upd_elim hh with ⟨_, hv⟩ | ⟨_, hold⟩
    · simp at hv
    · exact I.hold_lt _ _ hold
  · intro sid2 g hh
    rcases holdsW_upd_elim hh with ⟨_, hv⟩ | ⟨_, hold⟩
    · simp at hv
    · exact I.hold_nl _ _ hold
  · intro sid2 sid3 g h2 h3
    rcases holdsW_upd_elim h2 with ⟨_, hv⟩ | ⟨_, hold2⟩
    · simp at hv
    rcases holdsW_upd_elim h3 with ⟨_, hv⟩ | ⟨_, hold3⟩
    · simp at hv
    exact I.hold_uq _ _ _ hold2 hold3
  · intro sid2 g hh
    dsimp only at hh ⊢
    by_cases hc : sid2 = sid
    · subst hc; rw [upd_self] at hh; cases hh
    · rw [upd_ne _ _ _ _ hc] at hh; exact I.holding_st _ _ hh
  · intro sid2 g hh
    dsimp only at hh ⊢
    by_cases hc : sid2 = sid
    · subst hc; rw [upd_self] at hh; cases hh
    · rw [upd_ne _ _ _ _ hc] at hh; exact I.checking_st _ _ hh
  · intro sid2 g hh
    dsimp only at hh ⊢
    by_cases hc : sid2 = sid
    · subst hc; rw [upd_self] at hh; cases hh
    · rw [upd_ne _ _ _ _ hc] at hh; exact I.claimed_st _ _ hh
  · intro g hlt hst
    dsimp only at hlt hst ⊢
    obtain ⟨hw, hloc⟩ := I.idle_loc g hlt hst
    refine ⟨hw, ?_⟩
    rcases hloc with hin | ⟨sid0, h0⟩
    · exact Or.inl hin
    · refine Or.inr ⟨sid0, ?_⟩
      have hne : sid0 ≠ sid := fun hc => by rw [hc, h] at h0; cases h0
      rw [upd_ne _ _ _ _ hne]
      exact h0
  · intro g sid2 hr
    dsimp only at hr ⊢
    obtain ⟨hlt, hst, hdone⟩ := I.run_st g sid2 hr
    refine ⟨hlt, hst, ?_⟩
    have hne : sid2 ≠ sid := fun hc => by rw [hc, h] at hdone; cases hdone
    rw [upd_ne _ _ _ _ hne]
    exact hdone
  · intro sid2 hd
    dsimp only at hd ⊢
    by_cases hc : sid2 = sid
    · subst hc; rw [upd_self] at hd; cases hd
    · rw [upd_ne _ _ _ _ hc] at hd; exact I.done_ex _ hd
  · intro sid2 hd
    dsimp only at hd ⊢
    by_cases hc : sid2 = sid
    · rw [hc]
      refine I.undone_ex sid ?_
      rw [h]
      intro hx
      cases hx
    · rw [upd_ne _ _ _ _ hc] at hd
      exact I.undone_ex _ hd

/-- `getPop` (the lock-atomic pop in `pool.get`) preserves the invariant. -/
theorem inv_getPop {s : Sys} {sid g : Nat} {rest : List Nat} (I : Inv s)
    (hs : s.subs sid = some SubSt.start) (hl : s.freeList = g :: rest) :
    Inv { s with freeList := rest, subs := upd s.subs sid (some (SubSt.holding g)) } := by
  have hgmem : g ∈ s.freeList := by rw [hl]; exact List.mem_cons_self g rest
  have hrest : ∀ x ∈ rest, x ∈ s.freeList := by
    intro x hx; rw [hl]; exact List.mem_cons_of_mem g hx
  have hgrest : g ∉ rest := by
    have := I.list_nd
    rw [hl] at this
    exact (List.nodup_cons.mp this).1
  refine ⟨?_, ?_, ?_, ?_, ?_, ?_, ?_, ?_, ?_, ?_, I.dying_ex, I.dead_ex, ?_, I.run_uq,
    ?_, ?_, I.unalloc⟩
  · intro x hx; exact I.list_lt x (hrest x hx)
  · have := I.list_nd
    rw [hl] at this
    exact (List.nodup_cons.mp this).2
  · intro x hx; exact I.list_st x (hrest x hx)
  · intro sid2 x hh
    rcases holdsW_upd_elim hh with ⟨_, hv⟩ | ⟨_, hold⟩
    · simp only [Option.some.injEq, reduceCtorEq, or_false, SubSt.holding.injEq] at hv
      subst hv
      exact I.list_lt g hgmem
    · exact I.hold_lt _ _ hold
  · intro sid2 x hh
    dsimp only
    rcases holdsW_upd_elim hh with ⟨_, hv⟩ | ⟨_, hold⟩
    · simp only [Option.some.injEq, reduceCtorEq, or_false, SubSt.holding.injEq] at hv
      subst hv
      exact hgrest
    · intro hx
      exact I.hold_nl _ _ hold (hrest _ hx)
  · intro sid2 sid3 x h2 h3
    rcases holdsW_upd_elim h2 with ⟨he2, hv2⟩ | ⟨hn2, hold2⟩
    · simp only [Option.some.injEq, reduceCtorEq, or_false, SubSt.holding.injEq] at hv2
      subst hv2
      rcases holdsW_upd_elim h3 with ⟨he3, _⟩ | ⟨_, hold3⟩
      · rw [he2, he3]
      · exact absurd hgmem (I.hold_nl _ _ hold3)
    · rcases holdsW_upd_elim h3 with ⟨he3, hv3⟩ | ⟨_, hold3⟩
      · simp only [Option.some.injEq, reduceCtorEq, or_false, SubSt.holding.injEq] at hv3
        subst hv3
        exact absurd hgmem (I.hold_nl _ _ hold2)
      · exact I.hold_uq _ _ _ hold2 hold3
  · intro sid2 x hh
    dsimp only at hh ⊢
    by_cases hc : sid2 = sid
    · subst hc
      rw [upd_self] at hh
      cases hh
      exact I.list_st g hgmem
    · rw [upd_ne _ _ _ _ hc] at hh
      exact I.holding_st _ _ hh
  · intro sid2 x hh
    dsimp only at hh ⊢
    by_cases hc : sid2 = sid
    · subst hc; rw [upd_self] at hh; cases hh
    · rw [upd_ne _ _ _ _ hc] at hh; exact I.checking_st _ _ hh
  · intro sid2 x hh
    dsimp only at hh ⊢
    by_cases hc : sid2 = sid
    · subst hc; rw [upd_self] at hh; cases hh
    · rw [upd_ne _ _ _ _ hc] at hh; exact I.claimed_st _ _ hh
  · intro x hlt hst
    dsimp only at hlt hst ⊢
    obtain ⟨hw, hloc⟩ := I.idle_loc x hlt hst
    refine ⟨hw, ?_⟩
    rcases hloc with hin | ⟨sid0, h0⟩
    · rw [hl] at hin
      rcases List.mem_cons.mp hin with heq | hin2
      · subst heq
        exact Or.inr ⟨sid, by rw [upd_self]⟩
      · exact Or.inl hin2
    · have hne : sid0 ≠ sid := by
        intro hc
        rw [hc, hs] at h0
        cases h0
      exact Or.inr ⟨sid0, by rw [upd_ne _ _ _ _ hne]; exact h0⟩
  · intro x sid2 hr
    dsimp only at hr ⊢
    obtain ⟨hlt, hst, hdone⟩ := I.run_st x sid2 hr
    refine ⟨hlt, hst, ?_⟩
    have hne : sid2 ≠ sid := by
      intro hc
      rw [hc, hs] at hdone
      cases hdone
    rw [upd_ne _ _ _ _ hne]
    exact hdone
  · intro sid2 hd
    dsimp only at hd ⊢
    by_cases hc : sid2 = sid
    · subst hc; rw [upd_self] at hd; cases hd
    · rw [upd_ne _ _ _ _ hc] at hd; exact I.done_ex _ hd
  · intro sid2 hd
    dsimp only at hd ⊢
    by_cases hc : sid2 = sid
    · rw [hc]
      refine I.undone_ex sid ?_
      rw [hs]
      intro hx
      cases hx
    · rw [upd_ne _ _ _ _ hc] at hd
      exact I.undone_ex _ hd

/-- `getAlloc` (`pool.get` falling through to `pool.alloc` on an empty list)
preserves the invariant. -/
theorem inv_getAlloc {s : Sys} {sid : Nat} (I : Inv s)
    (hs : s.subs sid = some SubSt.start) (hl : s.freeList = [])
    (hf : s.loop s.nextId = LoopSt.notStarted) :
    Inv { s with nextId := s.nextId + 1
                 status := upd s.status s.nextId statusIdle
                 loop := upd s.loop s.nextId LoopSt.waiting
                 subs := upd s.subs sid (some (SubSt.holding s.nextId)) } := by
  refine ⟨?_, I.list_nd, ?_, ?_, ?_, ?_, ?_, ?_, ?_, ?_, ?_, ?_, ?_, ?_, ?_, ?_, ?_⟩
  · intro x hx
    have := I.list_lt x hx
    dsimp only
    omega
  · intro x hx
    dsimp only
    have hxlt := I.list_lt x hx
    rw [upd_ne _ _ _ _ (by omega : x ≠ s.nextId)]
    exact I.list_st x hx
  · intro sid2 x hh
    dsimp only
    rcases holdsW_upd_elim hh with ⟨_, hv⟩ | ⟨_, hold⟩
    · simp only [Option.some.injEq, reduceCtorEq, or_false, SubSt.holding.injEq] at hv
      omega
    · have := I.hold_lt _ _ hold
      omega
  · intro sid2 x hh
    dsimp only
    rcases holdsW_upd_elim hh with ⟨_, hv⟩ | ⟨_, hold⟩
    · simp only [Option.some.injEq, reduceCtorEq, or_false, SubSt.holding.injEq] at hv
      subst hv
      rw [hl]
      simp
    · exact I.hold_nl _ _ hold
  · intro sid2 sid3 x h2 h3
    rcases holdsW_upd_elim h2 with ⟨he2, hv2⟩ | ⟨hn2, hold2⟩
    · simp only [Option.some.injEq, reduceCtorEq, or_false, SubSt.holding.injEq] at hv2
      subst hv2
      rcases holdsW_upd_elim h3 with ⟨he3, _⟩ | ⟨_, hold3⟩
      · rw [he2, he3]
      · have := I.hold_lt _ _ hold3
        omega
    · rcases holdsW_upd_elim h3 with ⟨he3, hv3⟩ | ⟨_, hold3⟩
      · simp only [Option.some.injEq, reduceCtorEq, or_false, SubSt.holding.injEq] at hv3
        subst hv3
        have := I.hold_lt _ _ hold2
        omega
      · exact I.hold_uq _ _ _ hold2 hold3
  · intro sid2 x hh
    dsimp only at hh ⊢
    by_cases hc : sid2 = sid
    · subst hc
      rw [upd_self] at hh
      cases hh
      rw [upd_self]
      exact Or.inl rfl
    · rw [upd_ne _ _ _ _ hc] at hh
      have hxlt := I.hold_lt _ _ (Or.inl hh)
      rw [upd_ne _ _ _ _ (by omega : x ≠ s.nextId)]
      exact I.holding_st _ _ hh
  · intro sid2 x hh
    dsimp only at hh ⊢
    by_cases hc : sid2 = sid
    · subst hc; rw [upd_self] at hh; cases hh
    · rw [upd_ne _ _ _ _ hc] at hh
      have hxlt := I.hold_lt _ _ (Or.inr (Or.inl hh))
      rw [upd_ne _ _ _ _ (by omega : x ≠ s.nextId)]
      exact I.checking_st _ _ hh
  · intro sid2 x hh
    dsimp only at hh ⊢
    by_cases hc : sid2 = sid
    · subst hc; rw [upd_self] at hh; cases hh
    · rw [upd_ne _ _ _ _ hc] at hh
      have hxlt := I.hold_lt _ _ (Or.inr (Or.inr hh))
      rw [upd_ne _ _ _ _ (by omega : x ≠ s.nextId),
        upd_ne _ _ _ _ (by omega : x ≠ s.nextId)]
      exact I.claimed_st _ _ hh
  · intro x hlt hst
    dsimp only at hlt hst ⊢
    by_cases hx : x = s.nextId
    · subst hx
      rw [upd_self]
      exact ⟨rfl, Or.inr ⟨sid, by rw [upd_self]⟩⟩
    · rw [upd_ne _ _ _ _ hx] at hst
      have hxlt : x < s.nextId := by omega
      obtain ⟨hw, hloc⟩ := I.idle_loc x hxlt hst
      rw [upd_ne _ _ _ _ hx]
      refine ⟨hw, ?_⟩
      rcases hloc with hin | ⟨sid0, h0⟩
      · exact Or.inl hin
      · have hne : sid0 ≠ sid := by
          intro hc
          rw [hc, hs] at h0
          cases h0
        exact Or.inr ⟨sid0, by rw [upd_ne _ _ _ _ hne]; exact h0⟩
  · intro x hst
    dsimp only at hst ⊢
    by_cases hx : x = s.nextId
    · subst hx
      rw [upd_self] at hst
      exact absurd hst (by decide)
    · rw [upd_ne _ _ _ _ hx] at hst
      rw [upd_ne _ _ _ _ hx]
      exact I.dying_ex x hst
  · intro x hst
    dsimp only at hst ⊢
    by_cases hx : x = s.nextId
    · subst hx
      rw [upd_self] at hst
      exact absurd hst (by decide)
    · rw [upd_ne _ _ _ _ hx] at hst
      rw [upd_ne _ _ _ _ hx]
      exact I.dead_ex x hst
  · intro x sid2 hr
    dsimp only at hr ⊢
    by_cases hx : x = s.nextId
    · subst hx
      rw [upd_self] at hr
      cases hr
    · rw [upd_ne _ _ _ _ hx] at hr
      obtain ⟨hxlt, hst, hdone⟩ := I.run_st x sid2 hr
      have hne : sid2 ≠ sid := by
        intro hc
        rw [hc, hs] at hdone
        cases hdone
      rw [upd_ne _ _ _ _ hx, upd_ne _ _ _ _ hne]
      exact ⟨by omega, hst, hdone⟩
  · intro x x2 sid2 h2 h3
    dsimp only at h2 h3
    by_cases hx : x = s.nextId
    · subst hx; rw [upd_self] at h2; cases h2
    by_cases hx2 : x2 = s.nextId
    · subst hx2; rw [upd_self] at h3; cases h3
    rw [upd_ne _ _ _ _ hx] at h2
    rw [upd_ne _ _ _ _ hx2] at h3
    exact I.run_uq _ _ _ h2 h3
  · intro sid2 hd
    dsimp only at hd ⊢
    by_cases hc : sid2 = sid
    · subst hc; rw [upd_self] at hd; cases hd
    · rw [upd_ne _ _ _ _ hc] at hd
      rcases I.done_ex _ hd with ⟨he, hng⟩ | ⟨he, g0, hg0⟩
      · refine Or.inl ⟨he, ?_⟩
        intro x
        by_cases hx : x = s.nextId
        · subst hx; rw [upd_self]; intro hq; cases hq
        · rw [upd_ne _ _ _ _ hx]; exact hng x
      · refine Or.inr ⟨he, g0, ?_⟩
        have hg0n : g0 ≠ s.nextId := by
          intro hq
          rw [hq, hf] at hg0
          cases hg0
        rw [upd_ne _ _ _ _ hg0n]
        exact hg0
  · intro sid2 hd
    dsimp only at hd ⊢
    have hnd : s.subs sid2 ≠ some SubSt.done := by
      by_cases hc : sid2 = sid
      · rw [hc, hs]; intro hx; cases hx
      · rw [upd_ne _ _ _ _ hc] at hd; exact hd
    obtain ⟨he, hng⟩ := I.undone_ex _ hnd
    refine ⟨he, ?_⟩
    intro x
    by_cases hx : x = s.nextId
    · subst hx; rw [upd_self]; intro hq; cases hq
    · rw [upd_ne _ _ _ _ hx]; exact hng x
  · intro x hge
    dsimp only at hge ⊢
    have hxn : x ≠ s.nextId := by omega
    rw [upd_ne _ _ _ _ hxn, upd_ne _ _ _ _ hxn]
    exact I.unalloc x (by omega)

/-- A successful `CompareAndSwapInt32(&g.status, statusIdle, statusInUse)` in
`pool.Go` preserves the invariant. -/
theorem inv_casOk {s : Sys} {sid g : Nat} (I : Inv s)
    (hs : s.subs sid = some (SubSt.holding g)) (hg : s.status g = statusIdle) :
    Inv { s with status := upd s.status g statusInUse
                 subs := upd s.subs sid (some (SubSt.claimed g)) } := by
  have hgnl : g ∉ s.freeList := I.hold_nl _ _ (Or.inl hs)
  have hglt : g < s.nextId := I.hold_lt _ _ (Or.inl hs)
  refine ⟨I.list_lt, I.list_nd, ?_, ?_, ?_, ?_, ?_, ?_, ?_, ?_, ?_, ?_, ?_, I.run_uq,
    ?_, ?_, ?_⟩
  · intro x hx
    dsimp only
    have hxg : x ≠ g := fun hq => hgnl (hq ▸ hx)
    rw [upd_ne _ _ _ _ hxg]
    exact I.list_st x hx
  · intro sid2 x hh
    rcases holdsW_upd_elim hh with ⟨_, hv⟩ | ⟨_, hold⟩
    · simp only [Option.some.injEq, reduceCtorEq, false_or, or_false,
        SubSt.claimed.injEq] at hv
      subst hv
      exact hglt
    · exact I.hold_lt _ _ hold
  · intro sid2 x hh
    dsimp only
    rcases holdsW_upd_elim hh with ⟨_, hv⟩ | ⟨_, hold⟩
    · simp only [Option.some.injEq, reduceCtorEq, false_or, or_false,
        SubSt.claimed.injEq] at hv
      subst hv
      exact hgnl
    · exact I.hold_nl _ _ hold
  · intro sid2 sid3 x h2 h3
    rcases holdsW_upd_elim h2 with ⟨he2, hv2⟩ | ⟨hn2, hold2⟩
    · simp only [Option.some.injEq, reduceCtorEq, false_or, or_false,
        SubSt.claimed.injEq] at hv2
      subst hv2
      rcases holdsW_upd_elim h3 with ⟨he3, _⟩ | ⟨hn3, hold3⟩
      · rw [he2, he3]
      · exact absurd (I.hold_uq _ _ _ hold3 (Or.inl hs)) hn3
    · rcases holdsW_upd_elim h3 with ⟨he3, hv3⟩ | ⟨_, hold3⟩
      · simp only [Option.some.injEq, reduceCtorEq, false_or, or_false,
          SubSt.claimed.injEq] at hv3
        subst hv3
        exact absurd (I.hold_uq _ _ _ hold2 (Or.inl hs)) hn2
      · exact I.hold_uq _ _ _ hold2 hold3
  · intro sid2 x hh
    dsimp only at hh ⊢
    by_cases hc : sid2 = sid
    · subst hc; rw [upd_self] at hh; cases hh
    · rw [upd_ne _ _ _ _ hc] at hh
      have hxg : x ≠ g := by
        intro hq
        subst hq
        exact hc (I.hold_uq _ _ _ (Or.inl hh) (Or.inl hs))
      rw [upd_ne _ _ _ _ hxg]
      exact I.holding_st _ _ hh
  · intro sid2 x hh
    dsimp only at hh ⊢
    by_cases hc : sid2 = sid
    · subst hc; rw [upd_self] at hh; cases hh
    · rw [upd_ne _ _ _ _ hc] at hh
      have hxg : x ≠ g := by
        intro hq
        subst hq
        exact hc (I.hold_uq _ _ _ (Or.inr (Or.inl hh)) (Or.inl hs))
      rw [upd_ne _ _ _ _ hxg]
      exact I.checking_st _ _ hh
  · intro sid2 x hh
    dsimp only at hh ⊢
    by_cases hc : sid2 = sid
    · subst hc
      rw [upd_self] at hh
      cases hh
      rw [upd_self]
      exact ⟨rfl, (I.idle_loc g hglt hg).1⟩
    · rw [upd_ne _ _ _ _ hc] at hh
      have hxg : x ≠ g := by
        intro hq
        subst hq
        exact hc (I.hold_uq _ _ _ (Or.inr (Or.inr hh)) (Or.inl hs))
      rw [upd_ne _ _ _ _ hxg]
      exact I.claimed_st _ _ hh
  · intro x hlt hst
    dsimp only at hlt hst ⊢
    by_cases hxg : x = g
    · subst hxg
      rw [upd_self] at hst
      exact absurd hst (by decide)
    · rw [upd_ne _ _ _ _ hxg] at hst
      obtain ⟨hw, hloc⟩ := I.idle_loc x hlt hst
      refine ⟨hw, ?_⟩
      rcases hloc with hin | ⟨sid0, h0⟩
      · exact Or.inl hin
      · have hne : sid0 ≠ sid := by
          intro hc
          rw [hc, hs] at h0
          cases h0
          exact hxg rfl
        exact Or.inr ⟨sid0, by rw [upd_ne _ _ _ _ hne]; exact h0⟩
  · intro x hst
    dsimp only at hst ⊢
    by_cases hxg : x = g
    · subst hxg
      rw [upd_self] at hst
      exact absurd hst (by decide)
    · rw [upd_ne _ _ _ _ hxg] at hst
      exact I.dying_ex x hst
  · intro x hst
    dsimp only at hst ⊢
    by_cases hxg : x = g
    · subst hxg
      rw [upd_self] at hst
      exact absurd hst (by decide)
    · rw [upd_ne _ _ _ _ hxg] at hst
      exact I.dead_ex x hst
  · intro x sid2 hr
    dsimp only at hr ⊢
    obtain ⟨hxlt, hst, hdone⟩ := I.run_st x sid2 hr
    have hxg : x ≠ g := by
      intro hq
      rw [hq, hg] at hst
      exact absurd hst (by decide)
    have hne : sid2 ≠ sid := by
      intro hc
      rw [hc, hs] at hdone
      cases hdone
    rw [upd_ne _ _ _ _ hxg, upd_ne _ _ _ _ hne]
    exact ⟨hxlt, hst, hdone⟩
  · intro sid2 hd
    dsimp only at hd ⊢
    by_cases hc : sid2 = sid
    · subst hc; rw [upd_self] at hd; cases hd
    · rw [upd_ne _ _ _ _ hc] at hd
      exact I.done_ex _ hd
  · intro sid2 hd
    dsimp only at hd ⊢
    by_cases hc : sid2 = sid
    · rw [hc]
      refine I.undone_ex sid ?_
      rw [hs]
      intro hx
      cases hx
    · rw [upd_ne _ _ _ _ hc] at hd
      exact I.undone_ex _ hd
  · intro x hge
    dsimp only at hge ⊢
    have hxg : x ≠ g := by omega
    rw [upd_ne _ _ _ _ hxg]
    exact I.unalloc x hge

/-- A failed claiming CAS in `pool.Go` preserves the invariant. -/
theorem inv_casFail {s : Sys} {sid g : Nat} (I : Inv s)
    (hs : s.subs sid = some (SubSt.holding g)) (hg : s.status g ≠ statusIdle) :
    Inv { s with subs := upd s.subs sid (some (SubSt.checking g)) } := by
  have hgdy : s.status g = statusDying := by
    rcases I.holding_st _ _ hs with h1 | h2
    · exact absurd h1 hg
    · exact h2
  refine ⟨I.list_lt, I.list_nd, I.list_st, ?_, ?_, ?_, ?_, ?_, ?_, ?_, I.dying_ex,
    I.dead_ex, ?_, I.run_uq, ?_, ?_, I.unalloc⟩
  · intro sid2 x hh
    rcases holdsW_upd_elim hh with ⟨_, hv⟩ | ⟨_, hold⟩
    · simp only [Option.some.injEq, reduceCtorEq, false_or, or_false,
        SubSt.checking.injEq] at hv
      subst hv
      exact I.hold_lt _ _ (Or.inl hs)
    · exact I.hold_lt _ _ hold
  · intro sid2 x hh
    dsimp only
    rcases holdsW_upd_elim hh with ⟨_, hv⟩ | ⟨_, hold⟩
    · simp only [Option.some.injEq, reduceCtorEq, false_or, or_false,
        SubSt.checking.injEq] at hv
      subst hv
      exact I.hold_nl _ _ (Or.inl hs)
    · exact I.hold_nl _ _ hold
  · intro sid2 sid3 x h2 h3
    rcases holdsW_upd_elim h2 with ⟨he2, hv2⟩ | ⟨hn2, hold2⟩
    · simp only [Option.some.injEq, reduceCtorEq, false_or, or_false,
        SubSt.checking.injEq] at hv2
      subst hv2
      rcases holdsW_upd_elim h3 with ⟨he3, _⟩ | ⟨hn3, hold3⟩
      · rw [he2, he3]
      · exact absurd (I.hold_uq _ _ _ hold3 (Or.inl hs)) hn3
    · rcases holdsW_upd_elim h3 with ⟨he3, hv3⟩ | ⟨_, hold3⟩
      · simp only [Option.some.injEq, reduceCtorEq, false_or, or_false,
          SubSt.checking.injEq] at hv3
        subst hv3
        exact absurd (I.hold_uq _ _ _ hold2 (Or.inl hs)) hn2
      · exact I.hold_uq _ _ _ hold2 hold3
  · intro sid2 x hh
    dsimp only at hh ⊢
    by_cases hc : sid2 = sid
    · subst hc; rw [upd_self] at hh; cases hh
    · rw [upd_ne _ _ _ _ hc] at hh
      exact I.holding_st _ _ hh
  · intro sid2 x hh
    dsimp only at hh ⊢
    by_cases hc : sid2 = sid
    · subst hc
      rw [upd_self] at hh
      cases hh
      exact hgdy
    · rw [upd_ne _ _ _ _ hc] at hh
      exact I.checking_st _ _ hh
  · intro sid2 x hh
    dsimp only at hh ⊢
    by_cases hc : sid2 = sid
    · subst hc; rw [upd_self] at hh; cases hh
    · rw [upd_ne _ _ _ _ hc] at hh
      exact I.claimed_st _ _ hh
  · intro x hlt hst
    dsimp only at hlt hst ⊢
    obtain ⟨hw, hloc⟩ := I.idle_loc x hlt hst
    refine ⟨hw, ?_⟩
    rcases hloc with hin | ⟨sid0, h0⟩
    · exact Or.inl hin
    · have hne : sid0 ≠ sid := by
        intro hc
        rw [hc, hs] at h0
        cases h0
        rw [hst] at hgdy
        exact absurd hgdy (by decide)
      exact Or.inr ⟨sid0, by rw [upd_ne _ _ _ _ hne]; exact h0⟩
  · intro x sid2 hr
    dsimp only at hr ⊢
    obtain ⟨hxlt, hst, hdone⟩ := I.run_st x sid2 hr
    have hne : sid2 ≠ sid := by
      intro hc
      rw [hc, hs] at hdone
      cases hdone
    rw [upd_ne _ _ _ _ hne]
    exact ⟨hxlt, hst, hdone⟩
  · intro sid2 hd
    dsimp only at hd ⊢
    by_cases hc : sid2 = sid
    · subst hc; rw [upd_self] at hd; cases hd
    · rw [upd_ne _ _ _ _ hc] at hd
      exact I.done_ex _ hd
  · intro sid2 hd
    dsimp only at hd ⊢
    by_cases hc : sid2 = sid
    · rw [hc]
      refine I.undone_ex sid ?_
      rw [hs]
      intro hx
      cases hx
    · rw [upd_ne _ _ _ _ hc] at hd
      exact I.undone_ex _ hd

/-- The plain store `g.status = statusDead` in `pool.Go` (performed after the
load saw `statusDying`) preserves the invariant. -/
theorem inv_storeDead {s : Sys} {sid g : Nat} (I : Inv s)
    (hs : s.subs sid = some (SubSt.checking g)) (hg : s.status g = statusDying) :
    Inv { s with status := upd s.status g statusDead
                 subs := upd s.subs sid (some SubSt.start) } := by
  have hgnl : g ∉ s.freeList := I.hold_nl _ _ (Or.inr (Or.inl hs))
  have hglt : g < s.nextId := I.hold_lt _ _ (Or.inr (Or.inl hs))
  have hgex : s.loop g = LoopSt.exited := I.dying_ex g hg
  refine ⟨I.list_lt, I.list_nd, ?_, ?_, ?_, ?_, ?_, ?_, ?_, ?_, ?_, ?_, ?_, I.run_uq,
    ?_, ?_, ?_⟩
  · intro x hx
    dsimp only
    have hxg : x ≠ g := fun hq => hgnl (hq ▸ hx)
    rw [upd_ne _ _ _ _ hxg]
    exact I.list_st x hx
  · intro sid2 x hh
    rcases holdsW_upd_elim hh with ⟨_, hv⟩ | ⟨_, hold⟩
    · simp at hv
    · exact I.hold_lt _ _ hold
  · intro sid2 x hh
    dsimp only
    rcases holdsW_upd_elim hh with ⟨_, hv⟩ | ⟨_, hold⟩
    · simp at hv
    · exact I.hold_nl _ _ hold
  · intro sid2 sid3 x h2 h3
    rcases holdsW_upd_elim h2 with ⟨_, hv2⟩ | ⟨_, hold2⟩
    · simp at hv2
    rcases holdsW_upd_elim h3 with ⟨_, hv3⟩ | ⟨_, hold3⟩
    · simp at hv3
    exact I.hold_uq _ _ _ hold2 hold3
  · intro sid2 x hh
    dsimp only at hh ⊢
    by_cases hc : sid2 = sid
    · subst hc; rw [upd_self] at hh; cases hh
    · rw [upd_ne _ _ _ _ hc] at hh
      have hxg : x ≠ g := by
        intro hq
        subst hq
        exact hc (I.hold_uq _ _ _ (Or.inl hh) (Or.inr (Or.inl hs)))
      rw [upd_ne _ _ _ _ hxg]
      exact I.holding_st _ _ hh
  · intro sid2 x hh
    dsimp only at hh ⊢
    by_cases hc : sid2 = sid
    · subst hc; rw [upd_self] at hh; cases hh
    · rw [upd_ne _ _ _ _ hc] at hh
      have hxg : x ≠ g := by
        intro hq
        subst hq
        exact hc (I.hold_uq _ _ _ (Or.inr (Or.inl hh)) (Or.inr (Or.inl hs)))
      rw [upd_ne _ _ _ _ hxg]
      exact I.checking_st _ _ hh
  · intro sid2 x hh
    dsimp only at hh ⊢
    by_cases hc : sid2 = sid
    · subst hc; rw [upd_self] at hh; cases hh
    · rw [upd_ne _ _ _ _ hc] at hh
      have hxg : x ≠ g := by
        intro hq
        subst hq
        exact hc (I.hold_uq _ _ _ (Or.inr (Or.inr hh)) (Or.inr (Or.inl hs)))
      rw [upd_ne _ _ _ _ hxg]
      exact I.claimed_st _ _ hh
  · intro x hlt hst
    dsimp only at hlt hst ⊢
    by_cases hxg : x = g
    · subst hxg
      rw [upd_self] at hst
      exact absurd hst (by decide)
    · rw [upd_ne _ _ _ _ hxg] at hst
      obtain ⟨hw, hloc⟩ := I.idle_loc x hlt hst
      refine ⟨hw, ?_⟩
      rcases hloc with hin | ⟨sid0, h0⟩
      · exact Or.inl hin
      · have hne : sid0 ≠ sid := by
          intro hc
          rw [hc, hs] at h0
          cases h0
        exact Or.inr ⟨sid0, by rw [upd_ne _ _ _ _ hne]; exact h0⟩
  · intro x hst
    dsimp only at hst ⊢
    by_cases hxg : x = g
    · subst hxg
      rw [upd_self] at hst
      exact absurd hst (by decide)
    · rw [upd_ne _ _ _ _ hxg] at hst
      exact I.dying_ex x hst
  · intro x hst
    dsimp only at hst ⊢
    by_cases hxg : x = g
    · subst hxg
      exact hgex
    · rw [upd_ne _ _ _ _ hxg] at hst
      exact I.dead_ex x hst
  · intro x sid2 hr
    dsimp only at hr ⊢
    obtain ⟨hxlt, hst, hdone⟩ := I.run_st x sid2 hr
    have hxg : x ≠ g := by
      intro hq
      rw [hq, hg] at hst
      exact absurd hst (by decide)
    have hne : sid2 ≠ sid := by
      intro hc
      rw [hc, hs] at hdone
      cases hdone
    rw [upd_ne _ _ _ _ hxg, upd_ne _ _ _ _ hne]
    exact ⟨hxlt, hst, hdone⟩
  · intro sid2 hd
    dsimp only at hd ⊢
    by_cases hc : sid2 = sid
    · subst hc; rw [upd_self] at hd; cases hd
    · rw [upd_ne _ _ _ _ hc] at hd
      exact I.done_ex _ hd
  · intro sid2 hd
    dsimp only at hd ⊢
    by_cases hc : sid2 = sid
    · rw [hc]
      refine I.undone_ex sid ?_
      rw [hs]
      intro hx
      cases hx
    · rw [upd_ne _ _ _ _ hc] at hd
      exact I.undone_ex _ hd
  · intro x hge
    dsimp only at hge ⊢
    have hxg : x ≠ g := by omega
    rw [upd_ne _ _ _ _ hxg]
    exact I.unalloc x hge

/-- The `else` fall-through of the dying check in `pool.Go` (a failed CAS
whose later load does not see `statusDying`) never fires in reachable states:
an invariant state in the `checking` program point always has a dying worker.
The step nevertheless preserves the invariant, vacuously. -/
theorem inv_skipDead {s : Sys} {sid g : Nat} (I : Inv s)
    (hs : s.subs sid = some (SubSt.checking g)) (hg : s.status g ≠ statusDying) :
    Inv { s with subs := upd s.subs sid (some SubSt.start) } :=
  absurd (I.checking_st _ _ hs) hg

/-- The channel handoff `g.ch <- f` / `case work := <-g.ch` preserves the
invariant. -/
theorem inv_handoff {s : Sys} {sid g : Nat} (I : Inv s)
    (hs : s.subs sid = some (SubSt.claimed g)) (hw : s.loop g = LoopSt.waiting) :
    Inv { s with subs := upd s.subs sid (some SubSt.done)
                 loop := upd s.loop g (LoopSt.running sid) } := by
  have hglt : g < s.nextId := I.hold_lt _ _ (Or.inr (Or.inr hs))
  have hgnl : g ∉ s.freeList := I.hold_nl _ _ (Or.inr (Or.inr hs))
  have hinuse : s.status g = statusInUse := (I.claimed_st _ _ hs).1
  have hnotdone : s.subs sid ≠ some SubSt.done := by
    rw [hs]
    intro hx
    cases hx
  obtain ⟨hexec0, hnorun⟩ := I.undone_ex sid hnotdone
  refine ⟨I.list_lt, I.list_nd, I.list_st, ?_, ?_, ?_, ?_, ?_, ?_, ?_, ?_, ?_, ?_, ?_,
    ?_, ?_, ?_⟩
  · intro sid2 x hh
    rcases holdsW_upd_elim hh with ⟨_, hv⟩ | ⟨_, hold⟩
    · simp at hv
    · exact I.hold_lt _ _ hold
  · intro sid2 x hh
    dsimp only
    rcases holdsW_upd_elim hh with ⟨_, hv⟩ | ⟨_, hold⟩
    · simp at hv
    · exact I.hold_nl _ _ hold
  · intro sid2 sid3 x h2 h3
    rcases holdsW_upd_elim h2 with ⟨_, hv2⟩ | ⟨_, hold2⟩
    · simp at hv2
    rcases holdsW_upd_elim h3 with ⟨_, hv3⟩ | ⟨_, hold3⟩
    · simp at hv3
    exact I.hold_uq _ _ _ hold2 hold3
  · intro sid2 x hh
    dsimp only at hh ⊢
    by_cases hc : sid2 = sid
    · subst hc; rw [upd_self] at hh; cases hh
    · rw [upd_ne _ _ _ _ hc] at hh
      exact I.holding_st _ _ hh
  · intro sid2 x hh
    dsimp only at hh ⊢
    by_cases hc : sid2 = sid
    · subst hc; rw [upd_self] at hh; cases hh
    · rw [upd_ne _ _ _ _ hc] at hh
      exact I.checking_st _ _ hh
  · intro sid2 x hh
    dsimp only at hh ⊢
    by_cases hc : sid2 = sid
    · subst hc; rw [upd_self] at hh; cases hh
    · rw [upd_ne _ _ _ _ hc] at hh
      have hxg : x ≠ g := by
        intro hq
        subst hq
        exact hc (I.hold_uq _ _ _ (Or.inr (Or.inr hh)) (Or.inr (Or.inr hs)))
      rw [upd_ne _ _ _ _ hxg]
      exact I.claimed_st _ _ hh
  · intro x hlt hst
    dsimp only at hlt hst ⊢
    obtain ⟨hwx, hloc⟩ := I.idle_loc x hlt hst
    have hxg : x ≠ g := by
      intro hq
      rw [hq, hinuse] at hst
      exact absurd hst (by decide)
    rw [upd_ne _ _ _ _ hxg]
    refine ⟨hwx, ?_⟩
    rcases hloc with hin | ⟨sid0, h0⟩
    · exact Or.inl hin
    · have hne : sid0 ≠ sid := by
        intro hc
        rw [hc, hs] at h0
        cases h0
      exact Or.inr ⟨sid0, by rw [upd_ne _ _ _ _ hne]; exact h0⟩
  · intro x hst
    dsimp only at hst ⊢
    have hxg : x ≠ g := by
      intro hq
      rw [hq, hinuse] at hst
      exact absurd hst (by decide)
    rw [upd_ne _ _ _ _ hxg]
    exact I.dying_ex x hst
  · intro x hst
    dsimp only at hst ⊢
    have hxg : x ≠ g := by
      intro hq
      rw [hq, hinuse] at hst
      exact absurd hst (by decide)
    rw [upd_ne _ _ _ _ hxg]
    exact I.dead_ex x hst
  · intro x sid2 hr
    dsimp only at hr ⊢
    by_cases hxg : x = g
    · subst hxg
      rw [upd_self] at hr
      cases hr
      rw [upd_self]
      exact ⟨hglt, hinuse, rfl⟩
    · rw [upd_ne _ _ _ _ hxg] at hr
      obtain ⟨hxlt, hst, hdone⟩ := I.run_st x sid2 hr
      have hne : sid2 ≠ sid := by
        intro hc
        rw [hc, hs] at hdone
        cases hdone
      rw [upd_ne _ _ _ _ hne]
      exact ⟨hxlt, hst, hdone⟩
  · intro x x2 sid2 h2 h3
    dsimp only at h2 h3
    by_cases hxg : x = g
    · by_cases hx2g : x2 = g
      · rw [hxg, hx2g]
      · rw [hxg, upd_self] at h2
        cases h2
        rw [upd_ne _ _ _ _ hx2g] at h3
        exact absurd h3 (hnorun x2)
    · rw [upd_ne _ _ _ _ hxg] at h2
      by_cases hx2g : x2 = g
      · rw [hx2g, upd_self] at h3
        cases h3
        exact absurd h2 (hnorun x)
      · rw [upd_ne _ _ _ _ hx2g] at h3
        exact I.run_uq _ _ _ h2 h3
  · intro sid2 hd
    dsimp only at hd ⊢
    by_cases hc : sid2 = sid
    · subst hc
      refine Or.inr ⟨hexec0, g, ?_⟩
      rw [upd_self]
    · rw [upd_ne _ _ _ _ hc] at hd
      rcases I.done_ex _ hd with ⟨he, hng⟩ | ⟨he, g0, hg0⟩
      · refine Or.inl ⟨he, ?_⟩
        intro x
        by_cases hxg : x = g
        · subst hxg
          rw [upd_self]
          intro hq
          cases hq
          exact hc rfl
        · rw [upd_ne _ _ _ _ hxg]
          exact hng x
      · refine Or.inr ⟨he, g0, ?_⟩
        have hg0g : g0 ≠ g := by
          intro hq
          rw [hq, hw] at hg0
          cases hg0
        rw [upd_ne _ _ _ _ hg0g]
        exact hg0
  · intro sid2 hd
    dsimp only at hd ⊢
    by_cases hc : sid2 = sid
    · subst hc
      rw [upd_self] at hd
      exact absurd rfl hd
    · rw [upd_ne _ _ _ _ hc] at hd
      obtain ⟨he, hng⟩ := I.undone_ex _ hd
      refine ⟨he, ?_⟩
      intro x
      by_cases hxg : x = g
      · subst hxg
        rw [upd_self]
        intro hq
        cases hq
        exact hc rfl
      · rw [upd_ne _ _ _ _ hxg]
        exact hng x
  · intro x hge
    dsimp only at hge ⊢
    have hxg : x ≠ g := by omega
    rw [upd_ne _ _ _ _ hxg]
    exact I.unalloc x hge

/-- `work()` returning followed by `pool.put(g)` (the lock-atomic tail
append together with the plain store `p.status = statusIdle`) preserves the
invariant. -/
theorem inv_finish {s : Sys} {g sid : Nat} (I : Inv s)
    (hr : s.loop g = LoopSt.running sid) :
    Inv { s with execCount := upd s.execCount sid (s.execCount sid + 1)
                 status := upd s.status g statusIdle
                 freeList := s.freeList ++ [g]
                 loop := upd s.loop g LoopSt.waiting } := by
  obtain ⟨hglt, hinuse, hdone⟩ := I.run_st g sid hr
  have hgnl : g ∉ s.freeList := by
    intro hin
    rcases I.list_st g hin with h1 | h2
    · rw [hinuse] at h1; exact absurd h1 (by decide)
    · rw [hinuse] at h2; exact absurd h2 (by decide)
  have hexec0 : s.execCount sid = 0 := by
    rcases I.done_ex sid hdone with ⟨_, hng⟩ | ⟨he, _⟩
    · exact absurd hr (hng g)
    · exact he
  have hnohold : ∀ sid2, ¬ holdsW s sid2 g := by
    intro sid2 hold
    rcases hold with hh | hh | hh
    · rcases I.holding_st _ _ hh with h1 | h2
      · rw [hinuse] at h1; exact absurd h1 (by decide)
      · rw [hinuse] at h2; exact absurd h2 (by decide)
    · have := I.checking_st _ _ hh
      rw [hinuse] at this
      exact absurd this (by decide)
    · have := (I.claimed_st _ _ hh).2
      rw [hr] at this
      cases this
  refine ⟨?_, ?_, ?_, I.hold_lt, ?_, I.hold_uq, ?_, ?_, ?_, ?_, ?_, ?_, ?_, ?_, ?_,
    ?_, ?_⟩
  · intro x hx
    dsimp only at hx ⊢
    rcases List.mem_append.mp hx with hin | hin
    · exact I.list_lt x hin
    · rw [List.mem_singleton.mp hin]
      exact hglt
  · dsimp only
    rw [List.nodup_append]
    exact ⟨I.list_nd, List.nodup_singleton g,
      fun a ha hb => hgnl ((List.mem_singleton.mp hb) ▸ ha)⟩
  · intro x hx
    dsimp only at hx ⊢
    rcases List.mem_append.mp hx with hin | hin
    · have hxg : x ≠ g := fun hq => hgnl (hq ▸ hin)
      rw [upd_ne _ _ _ _ hxg]
      exact I.list_st x hin
    · rw [List.mem_singleton.mp hin, upd_self]
      exact Or.inl rfl
  · intro sid2 x hold
    dsimp only
    have hxg : x ≠ g := by
      intro hq
      subst hq
      exact hnohold sid2 hold
    intro hx
    rcases List.mem_append.mp hx with hin | hin
    · exact I.hold_nl _ _ hold hin
    · exact hxg (List.mem_singleton.mp hin)
  · intro sid2 x hh
    dsimp only at hh ⊢
    have hxg : x ≠ g := by
      intro hq
      subst hq
      exact hnohold sid2 (Or.inl hh)
    rw [upd_ne _ _ _ _ hxg]
    exact I.holding_st _ _ hh
  · intro sid2 x hh
    dsimp only at hh ⊢
    have hxg : x ≠ g := by
      intro hq
      subst hq
      exact hnohold sid2 (Or.inr (Or.inl hh))
    rw [upd_ne _ _ _ _ hxg]
    exact I.checking_st _ _ hh
  · intro sid2 x hh
    dsimp only at hh ⊢
    have hxg : x ≠ g := by
      intro hq
      subst hq
      exact hnohold sid2 (Or.inr (Or.inr hh))
    rw [upd_ne _ _ _ _ hxg, upd_ne _ _ _ _ hxg]
    exact I.claimed_st _ _ hh
  · intro x hlt hst
    dsimp only at hlt hst ⊢
    by_cases hxg : x = g
    · subst hxg
      rw [upd_self]
      exact ⟨rfl, Or.inl (List.mem_append.mpr (Or.inr (List.mem_singleton.mpr rfl)))⟩
    · rw [upd_ne _ _ _ _ hxg] at hst
      obtain ⟨hwx, hloc⟩ := I.idle_loc x hlt hst
      rw [upd_ne _ _ _ _ hxg]
      refine ⟨hwx, ?_⟩
      rcases hloc with hin | ⟨sid0, h0⟩
      · exact Or.inl (List.mem_append.mpr (Or.inl hin))
      · exact Or.inr ⟨sid0, h0⟩
  · intro x hst
    dsimp only at hst ⊢
    by_cases hxg : x = g
    · subst hxg
      rw [upd_self] at hst
      exact absurd hst (by decide)
    · rw [upd_ne _ _ _ _ hxg] at hst
      rw [upd_ne _ _ _ _ hxg]
      exact I.dying_ex x hst
  · intro x hst
    dsimp only at hst ⊢
    by_cases hxg : x = g
    · subst hxg
      rw [upd_self] at hst
      exact absurd hst (by decide)
    · rw [upd_ne _ _ _ _ hxg] at hst
      rw [upd_ne _ _ _ _ hxg]
      exact I.dead_ex x hst
  · intro x sid2 hr2
    dsimp only at hr2 ⊢
    by_cases hxg : x = g
    · subst hxg
      rw [upd_self] at hr2
      cases hr2
    · rw [upd_ne _ _ _ _ hxg] at hr2
      obtain ⟨hxlt, hst, hd⟩ := I.run_st x sid2 hr2
      rw [upd_ne _ _ _ _ hxg]
      exact ⟨hxlt, hst, hd⟩
  · intro x x2 sid2 h2 h3
    dsimp only at h2 h3
    by_cases hxg : x = g
    · rw [hxg, upd_self] at h2
      cases h2
    · rw [upd_ne _ _ _ _ hxg] at h2
      by_cases hx2g : x2 = g
      · rw [hx2g, upd_self] at h3
        cases h3
      · rw [upd_ne _ _ _ _ hx2g] at h3
        exact I.run_uq _ _ _ h2 h3
  · intro sid2 hd
    dsimp only at hd ⊢
    by_cases hc : sid2 = sid
    · subst hc
      refine Or.inl ⟨by rw [upd_self, hexec0], ?_⟩
      intro x
      by_cases hxg : x = g
      · rw [hxg, upd_self]
        intro hq
        cases hq
      · rw [upd_ne _ _ _ _ hxg]
        intro hq
        exact hxg (I.run_uq x g sid2 hq hr)
    · rw [upd_ne _ _ _ _ hc]
      rcases I.done_ex _ hd with ⟨he, hng⟩ | ⟨he, g0, hg0⟩
      · refine Or.inl ⟨he, ?_⟩
        intro x
        by_cases hxg : x = g
        · rw [hxg, upd_self]
          intro hq
          cases hq
        · rw [upd_ne _ _ _ _ hxg]
          exact hng x
      · refine Or.inr ⟨he, g0, ?_⟩
        have hg0g : g0 ≠ g := by
          intro hq
          rw [hq, hr] at hg0
          cases hg0
          exact hc rfl
        rw [upd_ne _ _ _ _ hg0g]
        exact hg0
  · intro sid2 hd
    dsimp only at hd ⊢
    have hc : sid2 ≠ sid := by
      intro hq
      rw [hq, hdone] at hd
      exact hd rfl
    rw [upd_ne _ _ _ _ hc]
    obtain ⟨he, hng⟩ := I.undone_ex _ hd
    refine ⟨he, ?_⟩
    intro x
    by_cases hxg : x = g
    · rw [hxg, upd_self]
      intro hq
      cases hq
    · rw [upd_ne _ _ _ _ hxg]
      exact hng x
  · intro x hge
    dsimp only at hge ⊢
    have hxg : x ≠ g := by omega
    rw [upd_ne _ _ _ _ hxg, upd_ne _ _ _ _ hxg]
    exact I.unalloc x hge

/-- A successful reaping CAS `statusIdle` to `statusDying` in the worker loop
(the loop then returns) preserves the invariant. -/
theorem inv_timerOk {s : Sys} {g : Nat} (I : Inv s)
    (hw : s.loop g = LoopSt.waiting) (hg : s.status g = statusIdle) :
    Inv { s with status := upd s.status g statusDying
                 loop := upd s.loop g LoopSt.exited } := by
  have hglt : g < s.nextId := by
    by_contra hge
    have := (I.unalloc g (by omega)).2
    rw [hw] at this
    cases this
  refine ⟨I.list_lt, I.list_nd, ?_, I.hold_lt, I.hold_nl, I.hold_uq, ?_, ?_, ?_, ?_,
    ?_, ?_, ?_, ?_, ?_, ?_, ?_⟩
  · intro x hx
    dsimp only
    by_cases hxg : x = g
    · rw [hxg, upd_self]
      exact Or.inr rfl
    · rw [upd_ne _ _ _ _ hxg]
      exact I.list_st x hx
  · intro sid2 x hh
    dsimp only
    by_cases hxg : x = g
    · rw [hxg, upd_self]
      exact Or.inr rfl
    · rw [upd_ne _ _ _ _ hxg]
      exact I.holding_st _ _ hh
  · intro sid2 x hh
    dsimp only
    have hxg : x ≠ g := by
      intro hq
      have := I.checking_st _ _ hh
      rw [hq, hg] at this
      exact absurd this (by decide)
    rw [upd_ne _ _ _ _ hxg]
    exact I.checking_st _ _ hh
  · intro sid2 x hh
    dsimp only
    have hst := (I.claimed_st _ _ hh).1
    have hxg : x ≠ g := by
      intro hq
      rw [hq, hg] at hst
      exact absurd hst (by decide)
    rw [upd_ne _ _ _ _ hxg, upd_ne _ _ _ _ hxg]
    exact I.claimed_st _ _ hh
  · intro x hlt hst
    dsimp only at hlt hst ⊢
    by_cases hxg : x = g
    · rw [hxg, upd_self] at hst
      exact absurd hst (by decide)
    · rw [upd_ne _ _ _ _ hxg] at hst
      obtain ⟨hwx, hloc⟩ := I.idle_loc x hlt hst
      rw [upd_ne _ _ _ _ hxg]
      exact ⟨hwx, hloc⟩
  · intro x hst
    dsimp only at hst ⊢
    by_cases hxg : x = g
    · rw [hxg, upd_self]
    · rw [upd_ne _ _ _ _ hxg] at hst
      rw [upd_ne _ _ _ _ hxg]
      exact I.dying_ex x hst
  · intro x hst
    dsimp only at hst ⊢
    by_cases hxg : x = g
    · rw [hxg, upd_self] at hst
      exact absurd hst (by decide)
    · rw [upd_ne _ _ _ _ hxg] at hst
      rw [upd_ne _ _ _ _ hxg]
      exact I.dead_ex x hst
  · intro x sid2 hr
    dsimp only at hr ⊢
    by_cases hxg : x = g
    · rw [hxg, upd_self] at hr
      cases hr
    · rw [upd_ne _ _ _ _ hxg] at hr
      obtain ⟨hxlt, hst, hd⟩ := I.run_st x sid2 hr
      rw [upd_ne _ _ _ _ hxg]
      exact ⟨hxlt, hst, hd⟩
  · intro x x2 sid2 h2 h3
    dsimp only at h2 h3
    by_cases hxg : x = g
    · rw [hxg, upd_self] at h2
      cases h2
    · rw [upd_ne _ _ _ _ hxg] at h2
      by_cases hx2g : x2 = g
      · rw [hx2g, upd_self] at h3
        cases h3
      · rw [upd_ne _ _ _ _ hx2g] at h3
        exact I.run_uq _ _ _ h2 h3
  · intro sid2 hd
    dsimp only at hd ⊢
    rcases I.done_ex _ hd with ⟨he, hng⟩ | ⟨he, g0, hg0⟩
    · refine Or.inl ⟨he, ?_⟩
      intro x
      by_cases hxg : x = g
      · rw [hxg, upd_self]
        intro hq
        cases hq
      · rw [upd_ne _ _ _ _ hxg]
        exact hng x
    · refine Or.inr ⟨he, g0, ?_⟩
      have hg0g : g0 ≠ g := by
        intro hq
        rw [hq, hw] at hg0
        cases hg0
      rw [upd_ne _ _ _ _ hg0g]
      exact hg0
  · intro sid2 hd
    dsimp only at hd ⊢
    obtain ⟨he, hng⟩ := I.undone_ex _ hd
    refine ⟨he, ?_⟩
    intro x
    by_cases hxg : x = g
    · rw [hxg, upd_self]
      intro hq
      cases hq
    · rw [upd_ne _ _ _ _ hxg]
      exact hng x
  · intro x hge
    dsimp only at hge ⊢
    have hxg : x ≠ g := by omega
    rw [upd_ne _ _ _ _ hxg, upd_ne _ _ _ _ hxg]
    exact I.unalloc x (by omega)

/-- Every atomic step of the system preserves the invariant. -/
theorem inv_step {s s2 : Sys} {l : Label} (I : Inv s) (h : Step s l s2) : Inv s2 := by
  cases h with
  | submit sid hh => exact inv_submit I hh
  | getPop sid g rest hs hl => exact inv_getPop I hs hl
  | getAlloc sid hs hl hf => exact inv_getAlloc I hs hl hf
  | casOk sid g hs hg => exact inv_casOk I hs hg
  | casFail sid g hs hg => exact inv_casFail I hs hg
  | storeDead sid g hs hg => exact inv_storeDead I hs hg
  | skipDead sid g hs hg => exact inv_skipDead I hs hg
  | handoff sid g hs hw => exact inv_handoff I hs hw
  | finish g sid hr => exact inv_finish I hr
  | timerOk g hw hg => exact inv_timerOk I hw hg
  | timerFail g hw hg => exact I

/-- The invariant holds along any run. -/
theorem inv_trace {s s2 : Sys} {ls : List Label} (I : Inv s) (h : Trace s ls s2) :
    Inv s2 := by
  induction h with
  | nil s => exact I
  | cons hstep _ ih => exact ih (inv_step I hstep)

/-- Every reachable state satisfies the invariant. -/
theorem inv_reach {s : Sys} (h : Reach s) : Inv s := by
  obtain ⟨ls, htr⟩ := h
  exact inv_trace inv_init htr

theorem trace_append : ∀ {s s1 s2 : Sys} {ls1 ls2 : List Label},
    Trace s ls1 s1 → Trace s1 ls2 s2 → Trace s (ls1 ++ ls2) s2 := by
  intro s s1 s2 ls1 ls2 h1
  induction h1 with
  | nil s => intro h2; exact h2
  | cons hstep htr ih => intro h2; exact Trace.cons hstep (ih h2)

/-- Once a worker loop has returned, no step restarts it. -/
theorem exited_step {s s2 : Sys} {l : Label} {g : Nat} (h : Step s l s2)
    (he : s.loop g = LoopSt.exited) : s2.loop g = LoopSt.exited := by
  cases h with
  | submit sid hh => exact he
  | getPop sid g2 rest hs hl => exact he
  | getAlloc sid hs hl hf =>
      dsimp only
      by_cases hxg : g = s.nextId
      · rw [hxg, hf] at he
        cases he
      · rw [upd_ne _ _ _ _ hxg]
        exact he
  | casOk sid g2 hs hg => exact he
  | casFail sid g2 hs hg => exact he
  | storeDead sid g2 hs hg => exact he
  | skipDead sid g2 hs hg => exact he
  | handoff sid g2 hs hw =>
      dsimp only
      by_cases hxg : g = g2
      · rw [hxg, hw] at he
        cases he
      · rw [upd_ne _ _ _ _ hxg]
        exact he
  | finish g2 sid hr =>
      dsimp only
      by_cases hxg : g = g2
      · rw [hxg, hr] at he
        cases he
      · rw [upd_ne _ _ _ _ hxg]
        exact he
  | timerOk g2 hw hg =>
      dsimp only
      by_cases hxg : g = g2
      · rw [hxg, upd_self]
      · rw [upd_ne _ _ _ _ hxg]
        exact he
  | timerFail g2 hw hg => exact he

theorem exited_trace : ∀ {ls : List Label} {s s2 : Sys} {g : Nat},
    Trace s ls s2 → s.loop g = LoopSt.exited → s2.loop g = LoopSt.exited := by
  intro ls
  induction ls with
  | nil =>
      intro s s2 g h he
      cases h
      exact he
  | cons l ls2 ih =>
      intro s s2 g h he
      cases h with
      | cons hstep htr => exact ih htr (exited_step hstep he)

/-- A returned worker loop never executes another work item: no `finish` step
for it appears in any later run. -/
theorem no_finish_of_exited : ∀ (ls : List Label) {s s2 : Sys} {g : Nat},
    s.loop g = LoopSt.exited → Trace s ls s2 →
    ∀ sid, Label.finish g sid ∉ ls := by
  intro ls
  induction ls with
  | nil => intro s s2 g he h sid; exact List.not_mem_nil _
  | cons l ls2 ih =>
      intro s s2 g he h sid
      cases h with
      | cons hstep htr =>
          intro hmem
          rcases List.mem_cons.mp hmem with heq | hmem2
          · rw [← heq] at hstep
            cases hstep with
            | finish g sid hr =>
                rw [he] at hr
                cases hr
          · exact ih (exited_step hstep he) htr sid hmem2

/-- A dead worker stays dead: no step ever changes a `statusDead` word. -/
theorem dead_step {s s2 : Sys} {l : Label} {g : Nat} (I : Inv s) (h : Step s l s2)
    (hd : s.status g = statusDead) : s2.status g = statusDead := by
  cases h with
  | submit sid hh => exact hd
  | getPop sid g2 rest hs hl => exact hd
  | getAlloc sid hs hl hf =>
      dsimp only
      by_cases hxg : g = s.nextId
      · have hun := (I.unalloc g (by rw [hxg])).1
        rw [hun] at hd
        exact absurd hd (by decide)
      · rw [upd_ne _ _ _ _ hxg]
        exact hd
  | casOk sid g2 hs hg =>
      dsimp only
      by_cases hxg : g = g2
      · rw [hxg, hg] at hd
        exact absurd hd (by decide)
      · rw [upd_ne _ _ _ _ hxg]
        exact hd
  | casFail sid g2 hs hg => exact hd
  | storeDead sid g2 hs hg =>
      dsimp only
      by_cases hxg : g = g2
      · rw [hxg, upd_self]
      · rw [upd_ne _ _ _ _ hxg]
        exact hd
  | skipDead sid g2 hs hg => exact hd
  | handoff sid g2 hs hw => exact hd
  | finish g2 sid hr =>
      dsimp only
      by_cases hxg : g = g2
      · have hex := I.dead_ex g hd
        rw [hxg, hr] at hex
        cases hex
      · rw [upd_ne _ _ _ _ hxg]
        exact hd
  | timerOk g2 hw hg =>
      dsimp only
      by_cases hxg : g = g2
      · rw [hxg, hg] at hd
        exact absurd hd (by decide)
      · rw [upd_ne _ _ _ _ hxg]
        exact hd
  | timerFail g2 hw hg => exact hd

theorem dead_trace : ∀ {ls : List Label} {s s2 : Sys} {g : Nat}, Inv s →
    Trace s ls s2 → s.status g = statusDead → s2.status g = statusDead := by
  intro ls
  induction ls with
  | nil =>
      intro s s2 g I h hd
      cases h
      exact hd
  | cons l ls2 ih =>
      intro s s2 g I h hd
      cases h with
      | cons hstep htr => exact ih (inv_step I hstep) htr (dead_step I hstep hd)

/-- A dead worker is never handed out again: no later `get` pops it (it is
not linked) and no later allocation hands out its identifier. -/
theorem dead_no_claim : ∀ (ls : List Label) {s s2 : Sys} {g : Nat}, Inv s →
    s.status g = statusDead → Trace s ls s2 →
    ∀ sid, Label.getPop sid g ∉ ls ∧ Label.getAlloc sid g ∉ ls := by
  intro ls
  induction ls with
  | nil => intro s s2 g I hd h sid; exact ⟨List.not_mem_nil _, List.not_mem_nil _⟩
  | cons l ls2 ih =>
      intro s s2 g I hd h sid
      cases h with
      | cons hstep htr =>
          obtain ⟨h1, h2⟩ := ih (inv_step I hstep) (dead_step I hstep hd) htr sid
          constructor
          · intro hmem
            rcases List.mem_cons.mp hmem with heq | hmem2
            · rw [← heq] at hstep
              cases hstep with
              | getPop sid g rest hs hl =>
                  have hmem3 : g ∈ s.freeList := by
                    rw [hl]
                    exact List.mem_cons_self g rest
                  rcases I.list_st g hmem3 with hx | hx
                  · rw [hd] at hx
                    exact absurd hx (by decide)
                  · rw [hd] at hx
                    exact absurd hx (by decide)
            · exact h1 hmem2
          · intro hmem
            rcases List.mem_cons.mp hmem with heq | hmem2
            · rw [← heq] at hstep
              cases hstep with
              | getAlloc sid hs hl hf =>
                  have hun := (I.unalloc s.nextId (le_refl _)).1
                  rw [hd] at hun
                  exact absurd hun (by decide)
            · exact h2 hmem2

theorem step01 : Step init (Label.submit 0) st1 := Step.submit init 0 rfl

theorem step12 : Step st1 (Label.getAlloc 0 0) st2 := Step.getAlloc st1 0 rfl rfl rfl

theorem step23 : Step st2 (Label.casOk 0 0) st3 := Step.casOk st2 0 0 rfl rfl

theorem step34 : Step st3 (Label.handoff 0 0) st4 := Step.handoff st3 0 0 rfl rfl

theorem step45 : Step st4 (Label.finish 0 0) st5 := Step.finish st4 0 0 rfl

theorem step56 : Step st5 (Label.timerOk 0) st6 := Step.timerOk st5 0 rfl rfl

theorem step67 : Step st6 (Label.submit 1) st7 := Step.submit st6 1 rfl

theorem step78 : Step st7 (Label.getPop 1 0) st8 := Step.getPop st7 1 0 [] rfl rfl

theorem step89 : Step st8 (Label.casFail 1 0) st9 := Step.casFail st8 1 0 rfl (by decide)

theorem step910 : Step st9 (Label.storeDead 1 0) st10 := Step.storeDead st9 1 0 rfl rfl

theorem reach_st1 : Reach st1 := ⟨[Label.submit 0], Trace.cons step01 (Trace.nil st1)⟩

theorem reach_st3 : Reach st3 :=
  ⟨[Label.submit 0, Label.getAlloc 0 0, Label.casOk 0 0],
    Trace.cons step01 (Trace.cons step12 (Trace.cons step23 (Trace.nil st3)))⟩

theorem reach_st4 : Reach st4 :=
  ⟨[Label.submit 0, Label.getAlloc 0 0, Label.casOk 0 0, Label.handoff 0 0],
    Trace.cons step01 (Trace.cons step12 (Trace.cons step23 (Trace.cons step34
      (Trace.nil st4))))⟩

theorem reach_st5 : Reach st5 :=
  ⟨[Label.submit 0, Label.getAlloc 0 0, Label.casOk 0 0, Label.handoff 0 0,
      Label.finish 0 0],
    Trace.cons step01 (Trace.cons step12 (Trace.cons step23 (Trace.cons step34
      (Trace.cons step45 (Trace.nil st5)))))⟩

theorem reach_st6 : Reach st6 :=
  ⟨[Label.submit 0, Label.getAlloc 0 0, Label.casOk 0 0, Label.handoff 0 0,
      Label.finish 0 0, Label.timerOk 0],
    Trace.cons step01 (Trace.cons step12 (Trace.cons step23 (Trace.cons step34
      (Trace.cons step45 (Trace.cons step56 (Trace.nil st6))))))⟩

theorem reach_st9 : Reach st9 :=
  ⟨[Label.submit 0, Label.getAlloc 0 0, Label.casOk 0 0, Label.handoff 0 0,
      Label.finish 0 0, Label.timerOk 0, Label.submit 1, Label.getPop 1 0,
      Label.casFail 1 0],
    Trace.cons step01 (Trace.cons step12 (Trace.cons step23 (Trace.cons step34
      (Trace.cons step45 (Trace.cons step56 (Trace.cons step67 (Trace.cons step78
        (Trace.cons step89 (Trace.nil st9)))))))))⟩

theorem reach_st10 : Reach st10 :=
  ⟨[Label.submit 0, Label.getAlloc 0 0, Label.casOk 0 0, Label.handoff 0 0,
      Label.finish 0 0, Label.timerOk 0, Label.submit 1, Label.getPop 1 0,
      Label.casFail 1 0, Label.storeDead 1 0],
    Trace.cons step01 (Trace.cons step12 (Trace.cons step23 (Trace.cons step34
      (Trace.cons step45 (Trace.cons step56 (Trace.cons step67 (Trace.cons step78
        (Trace.cons step89 (Trace.cons step910 (Trace.nil st10))))))))))⟩

theorem reach_st7 : Reach st7 :=
  ⟨[Label.submit 0, Label.getAlloc 0 0, Label.casOk 0 0, Label.handoff 0 0,
      Label.finish 0 0, Label.timerOk 0, Label.submit 1],
    Trace.cons step01 (Trace.cons step12 (Trace.cons step23 (Trace.cons step34
      (Trace.cons step45 (Trace.cons step56 (Trace.cons step67 (Trace.nil st7)))))))⟩

/-- From a claimed worker, the submission can run to completion: the handoff
fires and the worker executes the item exactly once. -/
theorem complete_claimed {s : Sys} {sid g : Nat} (I : Inv s)
    (hs : s.subs sid = some (SubSt.claimed g)) :
    ∃ ls s2, Trace s ls s2 ∧ s2.execCount sid = 1 ∧ s2.subs sid = some SubSt.done := by
  have hw := (I.claimed_st _ _ hs).2
  have hnd : s.subs sid ≠ some SubSt.done := by
    rw [hs]
    intro hx
    cases hx
  have hexec0 := (I.undone_ex sid hnd).1
  have hstep1 := Step.handoff s sid g hs hw
  have hstep2 := Step.finish
    { s with subs := upd s.subs sid (some SubSt.done)
             loop := upd s.loop g (LoopSt.running sid) }
    g sid (upd_self _ _ _)
  refine ⟨[Label.handoff sid g, Label.finish g sid], _,
    Trace.cons hstep1 (Trace.cons hstep2 (Trace.nil _)), ?_, ?_⟩
  · show upd s.execCount sid (s.execCount sid + 1) sid = 1
    rw [upd_self, hexec0]
  · show upd s.subs sid (some SubSt.done) sid = some SubSt.done
    rw [upd_self]

/-- From the `start` program point with an empty free list, `Go` allocates a
fresh worker, claims it, and the submission runs to completion. -/
theorem complete_start_empty {s : Sys} {sid : Nat} (I : Inv s)
    (hs : s.subs sid = some SubSt.start) (hl : s.freeList = []) :
    ∃ ls s2, Trace s ls s2 ∧ s2.execCount sid = 1 ∧ s2.subs sid = some SubSt.done := by
  have hf : s.loop s.nextId = LoopSt.notStarted := (I.unalloc s.nextId (le_refl _)).2
  have hstep1 := Step.getAlloc s sid hs hl hf
  have hstep2 := Step.casOk
    { s with nextId := s.nextId + 1
             status := upd s.status s.nextId statusIdle
             loop := upd s.loop s.nextId LoopSt.waiting
             subs := upd s.subs sid (some (SubSt.holding s.nextId)) }
    sid s.nextId (upd_self _ _ _) (upd_self _ _ _)
  obtain ⟨ls, s3, htr, he, hd⟩ :=
    complete_claimed (inv_step (inv_step I hstep1) hstep2) (upd_self _ _ _)
  exact ⟨_ :: _ :: ls, s3, Trace.cons hstep1 (Trace.cons hstep2 htr), he, hd⟩

/-- From the `start` program point (about to call `get`), the submission can
run to completion.  The retry loop discards at most the dying workers linked
ahead of it, so the run is found by induction on the free-list length. -/
theorem complete_start : ∀ (n : Nat) {s : Sys} {sid : Nat}, s.freeList.length ≤ n →
    Inv s → s.subs sid = some SubSt.start →
    ∃ ls s2, Trace s ls s2 ∧ s2.execCount sid = 1 ∧ s2.subs sid = some SubSt.done := by
  intro n
  induction n with
  | zero =>
      intro s sid hlen I hs
      exact complete_start_empty I hs (List.eq_nil_of_length_eq_zero (Nat.le_zero.mp hlen))
  | succ n ih =>
      intro s sid hlen I hs
      cases hfl : s.freeList with
      | nil => exact complete_start_empty I hs hfl
      | cons g rest =>
          have hstep1 := Step.getPop s sid g rest hs hfl
          have I1 := inv_step I hstep1
          have hgmem : g ∈ s.freeList := by
            rw [hfl]
            exact List.mem_cons_self g rest
          rcases I.list_st g hgmem with hidle | hdying
          · have hstep2 := Step.casOk
              { s with freeList := rest, subs := upd s.subs sid (some (SubSt.holding g)) }
              sid g (upd_self _ _ _) hidle
            obtain ⟨ls, s3, htr, he, hd⟩ :=
              complete_claimed (inv_step I1 hstep2) (upd_self _ _ _)
            exact ⟨_ :: _ :: ls, s3, Trace.cons hstep1 (Trace.cons hstep2 htr), he, hd⟩
          · have hstep2 := Step.casFail
              { s with freeList := rest, subs := upd s.subs sid (some (SubSt.holding g)) }
              sid g (upd_self _ _ _)
              (show s.status g ≠ statusIdle by rw [hdying]; decide)
            have hstep3 := Step.storeDead
              { s with freeList := rest
                       subs := upd (upd s.subs sid (some (SubSt.holding g))) sid
                         (some (SubSt.checking g)) }
              sid g (upd_self _ _ _) hdying
            have I3 := inv_step (inv_step I1 hstep2) hstep3
            have hlen3 : rest.length ≤ n := by
              rw [hfl] at hlen
              simp only [List.length_cons] at hlen
              omega
            obtain ⟨ls, s4, htr, he, hd⟩ := ih hlen3 I3 (upd_self _ _ _)
            exact ⟨_ :: _ :: _ :: ls, s4,
              Trace.cons hstep1 (Trace.cons hstep2 (Trace.cons hstep3 htr)), he, hd⟩

/-- From any program point of a submission, in any invariant state, the
submission can run to completion with its work item executed exactly once. -/
theorem complete_any {s : Sys} {sid : Nat} {st : SubSt} (I : Inv s)
    (hs : s.subs sid = some st) :
    ∃ ls s2, Trace s ls s2 ∧ s2.execCount sid = 1 ∧ s2.subs sid = some SubSt.done := by
  cases st with
  | start => exact complete_start s.freeList.length (le_refl _) I hs
  | holding g =>
      rcases I.holding_st _ _ hs with hidle | hdying
      · have hstep := Step.casOk s sid g hs hidle
        obtain ⟨ls, s3, htr, he, hd⟩ :=
          complete_claimed (inv_step I hstep) (upd_self _ _ _)
        exact ⟨_ :: ls, s3, Trace.cons hstep htr, he, hd⟩
      · have hstep1 := Step.casFail s sid g hs
          (show s.status g ≠ statusIdle by rw [hdying]; decide)
        have hstep2 := Step.storeDead
          { s with subs := upd s.subs sid (some (SubSt.checking g)) }
          sid g (upd_self _ _ _) hdying
        have I2 := inv_step (inv_step I hstep1) hstep2
        obtain ⟨ls, s3, htr, he, hd⟩ := complete_start _ (le_refl _) I2 (upd_self _ _ _)
        exact ⟨_ :: _ :: ls, s3, Trace.cons hstep1 (Trace.cons hstep2 htr), he, hd⟩
  | checking g =>
      have hdying := I.checking_st _ _ hs
      have hstep := Step.storeDead s sid g hs hdying
      obtain ⟨ls, s3, htr, he, hd⟩ :=
        complete_start _ (le_refl _) (inv_step I hstep) (upd_self _ _ _)
      exact ⟨_ :: ls, s3, Trace.cons hstep htr, he, hd⟩
  | claimed g => exact complete_claimed I hs
  | done =>
      rcases I.done_ex sid hs with ⟨he, _⟩ | ⟨he, g0, hg0⟩
      · exact ⟨[], s, Trace.nil s, he, hs⟩
      · have hstep := Step.finish s g0 sid hg0
        refine ⟨[Label.finish g0 sid], _, Trace.cons hstep (Trace.nil _), ?_, hs⟩
        show upd s.execCount sid (s.execCount sid + 1) sid = 1
        rw [upd_self, he]

/-- C1: for every sequence of submissions, each submitted work item is
executed by exactly one worker, exactly once, even when submissions race
with idle-timeout firings.  Formally, over all reachable states of the
interleaved system (which include every interleaving with `timerOk` and
`timerFail` steps): (a) no work item is ever executed more than once; (b) at
any instant at most one worker is executing a given item; (c) from any
reachable state, every submitted item can run to completion with its
execution count exactly 1. -/
theorem go_exactly_once :
    (∀ s sid, Reach s → s.execCount sid ≤ 1) ∧
    (∀ s sid g g2, Reach s → s.loop g = LoopSt.running sid →
      s.loop g2 = LoopSt.running sid → g = g2) ∧
    (∀ s sid st, Reach s → s.subs sid = some st →
      ∃ ls s2, Trace s ls s2 ∧ s2.execCount sid = 1 ∧ s2.subs sid = some SubSt.done) := by
  refine ⟨?_, ?_, ?_⟩
  · intro s sid hr
    have I := inv_reach hr
    by_cases hd : s.subs sid = some SubSt.done
    · rcases I.done_ex sid hd with ⟨he, _⟩ | ⟨he, _⟩ <;> omega
    · have he := (I.undone_ex sid hd).1
      omega
  · intro s sid g g2 hr h1 h2
    exact (inv_reach hr).run_uq _ _ _ h1 h2
  · intro s sid st hr hs
    exact complete_any (inv_reach hr) hs

/-- Witness for C1 at concrete inputs: the initial state, the state `st4`
where worker 0 runs item 0, and the state `st1` holding a fresh submission. -/
theorem go_exactly_once_w :
    init.execCount 0 ≤ 1 ∧ (0 : Nat) = 0 ∧
      (∃ ls s2, Trace st1 ls s2 ∧ s2.execCount 0 = 1 ∧ s2.subs 0 = some SubSt.done) :=
  ⟨go_exactly_once.1 init 0 ⟨[], Trace.nil init⟩,
   go_exactly_once.2.1 st4 0 0 0 reach_st4 rfl rfl,
   go_exactly_once.2.2 st1 0 SubSt.start reach_st1 rfl⟩

/-- C2 counterexample: the claim says no `Dying` worker is ever linked in
the free list, but at the reachable state `st6` (submit one item, let it
finish, then let the idle timer win the reaping CAS) worker 0 is linked in
the free list with status `statusDying`: the reaper leaves the node linked
and only the next claimer unlinks and discards it. -/
theorem dying_worker_linked :
    ∃ s, Reach s ∧ 0 ∈ s.freeList ∧ s.status 0 = statusDying :=
  ⟨st6, reach_st6, by decide, rfl⟩

/-- C2 amended: every worker linked in the free list has status `Idle` or
`Dying` (never `InUse` or `Dead`), and every allocated `Idle` worker is
either linked in the free list or held by a claimer between pop/allocation
and its claiming CAS. -/
theorem free_list_status_inv : ∀ s, Reach s →
    (∀ g ∈ s.freeList, s.status g = statusIdle ∨ s.status g = statusDying) ∧
    (∀ g ∈ s.freeList, s.status g ≠ statusInUse ∧ s.status g ≠ statusDead) ∧
    (∀ g, g < s.nextId → s.status g = statusIdle →
      g ∈ s.freeList ∨ ∃ sid, s.subs sid = some (SubSt.holding g)) := by
  intro s hr
  have I := inv_reach hr
  refine ⟨I.list_st, ?_, ?_⟩
  · intro g hg
    rcases I.list_st g hg with h | h <;> rw [h]
    · exact ⟨by decide, by decide⟩
    · exact ⟨by decide, by decide⟩
  · intro g hlt hst
    exact (I.idle_loc g hlt hst).2

/-- Witness for the amended C2 at the concrete reachable state `st6`. -/
theorem free_list_status_inv_w :
    (∀ g ∈ st6.freeList, st6.status g = statusIdle ∨ st6.status g = statusDying) ∧
    (∀ g ∈ st6.freeList, st6.status g ≠ statusInUse ∧ st6.status g ≠ statusDead) ∧
    (∀ g, g < st6.nextId → st6.status g = statusIdle →
      g ∈ st6.freeList ∨ ∃ sid, st6.subs sid = some (SubSt.holding g)) :=
  free_list_status_inv st6 reach_st6

/-- C3 counterexample: the claim says every mutation of the status word is a
compare-and-swap whose expected value is the exact prior state.  But the
release write in `put` is the plain store `p.status = statusIdle` with no
check at all: applied to a worker whose status is `statusDead` it still
writes `statusIdle` — a CAS expecting the exact prior state `statusInUse`
would have failed, and `Dead` to `Idle` is outside the four edges. -/
theorem put_store_unconditional :
    (sX.workers 7).status = statusDead ∧
      (((Pool.put sX 7).1).workers 7).status = statusIdle := by
  exact ⟨by decide, by decide⟩

/-- C3 amended: the claim transition `Idle` to `InUse` and the reap
transition `Idle` to `Dying` are compare-and-swaps whose expected value is
the exact prior state; `Dying` to `Dead` is a plain store guarded by a
separate atomic load observing `Dying`, and `InUse` to `Idle` is an
unconditional store performed under the pool lock in `put`.  Nevertheless,
in every reachable state, every status change a step performs is one of the
four edges of the state machine. -/
theorem status_transition_edges : ∀ s l s2 g, Reach s → Step s l s2 →
    s.status g ≠ s2.status g →
    (s.status g = statusIdle ∧ s2.status g = statusInUse) ∨
    (s.status g = statusIdle ∧ s2.status g = statusDying) ∨
    (s.status g = statusInUse ∧ s2.status g = statusIdle) ∨
    (s.status g = statusDying ∧ s2.status g = statusDead) := by
  intro s l s2 g hr hstep hne
  have I := inv_reach hr
  cases hstep with
  | submit sid hh => exact absurd rfl hne
  | getPop sid g2 rest hs hl => exact absurd rfl hne
  | getAlloc sid hs hl hf =>
      dsimp only at hne
      by_cases hxg : g = s.nextId
      · rw [hxg, upd_self] at hne
        rw [(I.unalloc s.nextId (le_refl _)).1] at hne
        exact absurd rfl hne
      · rw [upd_ne _ _ _ _ hxg] at hne
        exact absurd rfl hne
  | casOk sid g2 hs hg =>
      dsimp only at hne ⊢
      by_cases hxg : g = g2
      · subst hxg
        rw [upd_self]
        exact Or.inl ⟨hg, rfl⟩
      · rw [upd_ne _ _ _ _ hxg] at hne
        exact absurd rfl hne
  | casFail sid g2 hs hg => exact absurd rfl hne
  | storeDead sid g2 hs hg =>
      dsimp only at hne ⊢
      by_cases hxg : g = g2
      · subst hxg
        rw [upd_self]
        exact Or.inr (Or.inr (Or.inr ⟨hg, rfl⟩))
      · rw [upd_ne _ _ _ _ hxg] at hne
        exact absurd rfl hne
  | skipDead sid g2 hs hg => exact absurd rfl hne
  | handoff sid g2 hs hw => exact absurd rfl hne
  | finish g2 sid hr2 =>
      dsimp only at hne ⊢
      by_cases hxg : g = g2
      · subst hxg
        rw [upd_self]
        exact Or.inr (Or.inr (Or.inl ⟨(I.run_st g sid hr2).2.1, rfl⟩))
      · rw [upd_ne _ _ _ _ hxg] at hne
        exact absurd rfl hne
  | timerOk g2 hw hg =>
      dsimp only at hne ⊢
      by_cases hxg : g = g2
      · subst hxg
        rw [upd_self]
        exact Or.inr (Or.inl ⟨hg, rfl⟩)
      · rw [upd_ne _ _ _ _ hxg] at hne
        exact absurd rfl hne
  | timerFail g2 hw hg => exact absurd rfl hne

/-- Witness for the amended C3 at the concrete reaping step `st5` to `st6`. -/
theorem status_transition_edges_w :
    (st5.status 0 = statusIdle ∧ st6.status 0 = statusInUse) ∨
    (st5.status 0 = statusIdle ∧ st6.status 0 = statusDying) ∨
    (st5.status 0 = statusInUse ∧ st6.status 0 = statusIdle) ∨
    (st5.status 0 = statusDying ∧ st6.status 0 = statusDead) :=
  status_transition_edges st5 (Label.timerOk 0) st6 0 reach_st5 step56 (by decide)

/-- C4 counterexample: the claim says `get` clears the popped node's `next`
before releasing the lock, but on the concrete pool whose free list is `[0]`
the event trace of `get` is lock, pop, unlock, clear-next: the clear happens
after the unlock, never before it. -/
theorem get_clears_next_after_unlock :
    (Pool.get sC).2.2 = [Ev.lock, Ev.popHead 0, Ev.unlock, Ev.clearNext 0] ∧
    ordBefore (Ev.clearNext 0) Ev.unlock (Pool.get sC).2.2 = false ∧
    ordBefore Ev.unlock (Ev.clearNext 0) (Pool.get sC).2.2 = true := by
  exact ⟨by decide, by decide, by decide⟩

/-- C4 amended: `get` behaves as claimed — empty list falls through to a
brand-new `alloc`; otherwise it pops the node after the sentinel, relinks
the sentinel's `next` to the popped node's old `next`, resets the tail to
the sentinel exactly when the popped node was the tail, decrements `count`,
and clears the popped node's `next` — except that the clear happens after
the lock is released (safe, since the popped node is then privately
owned), not before. -/
theorem get_spec :
    (∀ s, s.headNext = none →
      Pool.get s = ((Pool.alloc s).1, (Pool.alloc s).2,
        [Ev.lock, Ev.unlock, Ev.allocWorker s.nextId])) ∧
    (∀ s g rest, reprB s (g :: rest) = true → (g :: rest).Nodup →
      (Pool.get s).2.1 = g ∧
      (Pool.get s).1.headNext = (s.workers g).next ∧
      (Pool.get s).1.tail = (if s.tail = some g then none else s.tail) ∧
      (Pool.get s).1.count = s.count - 1 ∧
      ((Pool.get s).1.workers g).next = none ∧
      reprB (Pool.get s).1 rest = true ∧
      (Pool.get s).2.2 = [Ev.lock, Ev.popHead g, Ev.unlock, Ev.clearNext g] ∧
      ordBefore Ev.unlock (Ev.clearNext g) (Pool.get s).2.2 = true) := by
  constructor
  · intro s h
    simp only [Pool.get, h]
  · intro s g rest hr hnd
    obtain ⟨h1, h2, h3, h4, h5, h6, h7⟩ := get_repr s g rest hr hnd
    refine ⟨h1, h2, h3, h4, h5, h7, h6, ?_⟩
    rw [h6]
    simp [ordBefore]

/-- Witness for the amended C4: a fresh pool allocates, and the pool with
free list `[0]` pops worker 0. -/
theorem get_spec_w :
    (Pool.get (Pool.New 3)).2.1 = (Pool.alloc (Pool.New 3)).2 ∧
      (Pool.get sC).2.1 = 0 :=
  ⟨by rw [get_spec.1 (Pool.New 3) rfl],
   (get_spec.2 sC 0 [] (by decide) (by decide)).1⟩

/-- C5: `put` clears the worker's `next`, then under the lock links it after
the current tail, moves the tail pointer to it, increments `count`, and sets
its status to `Idle` before releasing the lock; afterwards the worker is the
last element of the free list.  The event trace fixes the ordering:
clear-next precedes the lock acquisition and the `Idle` store precedes the
unlock. -/
theorem put_spec : ∀ s p l, reprB s l = true → l.Nodup → p ∉ l →
    (Pool.put s p).1.tail = some p ∧
    (Pool.put s p).1.count = s.count + 1 ∧
    ((Pool.put s p).1.workers p).status = statusIdle ∧
    ((Pool.put s p).1.workers p).next = none ∧
    reprB (Pool.put s p).1 (l ++ [p]) = true ∧
    (l ++ [p]).getLast? = some p ∧
    (Pool.put s p).2 = [Ev.clearNext p, Ev.lock, Ev.linkTail p, Ev.setIdle p, Ev.unlock] ∧
    ordBefore (Ev.clearNext p) Ev.lock (Pool.put s p).2 = true ∧
    ordBefore (Ev.setIdle p) Ev.unlock (Pool.put s p).2 = true := by
  intro s p l hr hnd hp
  obtain ⟨h1, h2, h3, h4, h5, h6⟩ := put_repr s p l hr hnd hp
  refine ⟨h1, h2, h3, h4, h6, ?_, h5, ?_, ?_⟩
  · rw [List.getLast?_append_cons]
    rfl
  · rw [h5]
    simp [ordBefore]
  · rw [h5]
    simp [ordBefore]

/-- Witness for C5: `put 0` into a fresh pool. -/
theorem put_spec_w :
    (Pool.put (Pool.New 4) 0).1.tail = some 0 ∧
      reprB (Pool.put (Pool.New 4) 0).1 [0] = true :=
  ⟨(put_spec (Pool.New 4) 0 [] (by decide) (by decide) (by decide)).1,
   (put_spec (Pool.New 4) 0 [] (by decide) (by decide) (by decide)).2.2.2.2.1⟩

/-- C6: `alloc` always returns a worker whose status is `Idle` (the int32
zero value), whose handoff channel has been made, and whose background loop
has been spawned, without inserting it into any free list; the pool's
sentinel link, tail pointer and `count` are unchanged, and any list the pool
represented before is still represented afterwards, without the new
worker. -/
theorem alloc_fresh_idle : ∀ s l, reprB s l = true → (∀ x ∈ l, x < s.nextId) →
    ((Pool.alloc s).1.workers (Pool.alloc s).2).status = statusIdle ∧
    ((Pool.alloc s).1.workers (Pool.alloc s).2).ch = true ∧
    ((Pool.alloc s).1.workers (Pool.alloc s).2).spawned = true ∧
    (Pool.alloc s).1.headNext = s.headNext ∧
    (Pool.alloc s).1.tail = s.tail ∧
    (Pool.alloc s).1.count = s.count ∧
    reprB (Pool.alloc s).1 l = true ∧
    (Pool.alloc s).2 ∉ l :=
  fun s l hr hb => alloc_spec s l hr hb

/-- Witness for C6 at the concrete pool with free list `[0]`. -/
theorem alloc_fresh_idle_w :
    ((Pool.alloc sC).1.workers (Pool.alloc sC).2).status = statusIdle ∧
      (Pool.alloc sC).2 ∉ [0] :=
  ⟨(alloc_fresh_idle sC [0] (by decide) (by decide)).1,
   (alloc_fresh_idle sC [0] (by decide) (by decide)).2.2.2.2.2.2.2⟩

/-- C7: when the idle timer elapses the worker CASes its status from `Idle`
to `Dying`; on success the loop exits permanently and the worker never
executes any work item afterwards (no `finish` step for it occurs in any
later run); on failure the step leaves the state entirely unchanged — the
loop re-arms the timer and keeps waiting, so the worker remains available
for reuse. -/
theorem timer_race :
    (∀ s s2 g, Step s (Label.timerOk g) s2 →
      s2.loop g = LoopSt.exited ∧ s2.status g = statusDying ∧
      ∀ ls s3, Trace s2 ls s3 → s3.loop g = LoopSt.exited ∧
        ∀ sid, Label.finish g sid ∉ ls) ∧
    (∀ s s2 g, Step s (Label.timerFail g) s2 →
      s2 = s ∧ s2.loop g = LoopSt.waiting ∧ s2.status g ≠ statusIdle) := by
  constructor
  · intro s s2 g hstep
    cases hstep with
    | timerOk hw hg =>
        refine ⟨upd_self _ _ _, upd_self _ _ _, ?_⟩
        intro ls s3 htr
        exact ⟨exited_trace htr (upd_self _ _ _),
          fun sid => no_finish_of_exited ls (upd_self _ _ _) htr sid⟩
  · intro s s2 g hstep
    cases hstep with
    | timerFail g hw hg => exact ⟨rfl, hw, hg⟩

/-- Witness for C7: the concrete reaping step `st5` to `st6` and a failed
timer CAS at `st3` (worker 0 is `InUse` there). -/
theorem timer_race_w :
    (st6.loop 0 = LoopSt.exited ∧ st6.status 0 = statusDying ∧
      st6.loop 0 = LoopSt.exited ∧ (∀ sid, Label.finish 0 sid ∉ ([] : List Label))) ∧
    (st3 = st3 ∧ st3.loop 0 = LoopSt.waiting ∧ st3.status 0 ≠ statusIdle) := by
  constructor
  · obtain ⟨h1, h2, h3⟩ := timer_race.1 st5 st6 0 step56
    obtain ⟨h4, h5⟩ := h3 [] st6 (Trace.nil st6)
    exact ⟨h1, h2, h4, h5⟩
  · exact timer_race.2 st3 st3 0 (Step.timerFail st3 0 rfl (by decide))

/-- C8: `Go` loops claiming candidates.  (a) When the claiming CAS failed on
a candidate observed `Dying`, the store marks it `Dead` and the loop is back
at `get`.  (b) `Dead` is terminal: along any later run the status never
changes again and no `get` pops that worker nor does an allocation hand its
identifier out again — the retry proceeds with a different worker.  (c) On a
successful CAS the work is sent over the worker's channel and `Go` returns
at the handoff, before the work has executed (its execution count is still
0 while the worker runs it).  (d) `Go` never fails: from any reachable
state, every submission can run to `Go` having returned. -/
theorem go_retry_discard :
    (∀ s s2 sid g, Step s (Label.storeDead sid g) s2 →
      s2.status g = statusDead ∧ s2.subs sid = some SubSt.start ∧
      s.status g = statusDying) ∧
    (∀ s s2 g ls, Reach s → s.status g = statusDead → Trace s ls s2 →
      s2.status g = statusDead ∧
      ∀ sid, Label.getPop sid g ∉ ls ∧ Label.getAlloc sid g ∉ ls) ∧
    (∀ s s2 sid g, Reach s → Step s (Label.handoff sid g) s2 →
      s2.subs sid = some SubSt.done ∧ s2.execCount sid = 0 ∧
      s2.loop g = LoopSt.running sid) ∧
    (∀ s sid st, Reach s → s.subs sid = some st →
      ∃ ls s2, Trace s ls s2 ∧ s2.subs sid = some SubSt.done) := by
  refine ⟨?_, ?_, ?_, ?_⟩
  · intro s s2 sid g hstep
    cases hstep with
    | storeDead sid g hs hg => exact ⟨upd_self _ _ _, upd_self _ _ _, hg⟩
  · intro s s2 g ls hr hd htr
    have I := inv_reach hr
    exact ⟨dead_trace I htr hd, dead_no_claim ls I hd htr⟩
  · intro s s2 sid g hr hstep
    have I := inv_reach hr
    cases hstep with
    | handoff sid g hs hw =>
        refine ⟨upd_self _ _ _, ?_, upd_self _ _ _⟩
        refine (I.undone_ex sid ?_).1
        rw [hs]
        intro hx
        cases hx
  · intro s sid st hr hs
    obtain ⟨ls, s2, htr, _, hd⟩ := complete_any (inv_reach hr) hs
    exact ⟨ls, s2, htr, hd⟩

/-- Witness for C8 at concrete inputs: the discard step `st9` to `st10`, the
dead worker 0 at `st10`, the handoff step `st3` to `st4`, and the fresh
submission at `st1`. -/
theorem go_retry_discard_w :
    (st10.status 0 = statusDead ∧ st10.subs 1 = some SubSt.start ∧
      st9.status 0 = statusDying) ∧
    (st10.status 0 = statusDead ∧
      ∀ sid, Label.getPop sid 0 ∉ ([] : List Label) ∧
        Label.getAlloc sid 0 ∉ ([] : List Label)) ∧
    (st4.subs 0 = some SubSt.done ∧ st4.execCount 0 = 0 ∧
      st4.loop 0 = LoopSt.running 0) ∧
    (∃ ls s2, Trace st1 ls s2 ∧ s2.subs 0 = some SubSt.done) :=
  ⟨go_retry_discard.1 st9 st10 1 0 step910,
   go_retry_discard.2.1 st10 st10 0 [] reach_st10 (by decide) (Trace.nil st10),
   go_retry_discard.2.2.1 st3 st4 0 0 reach_st3 step34,
   go_retry_discard.2.2.2 st1 0 SubSt.start reach_st1 rfl⟩

/-- C9 counterexample: the claim says a later claim (`get`) never returns a
worker that terminated through the idle timeout.  But at the reachable state
`st7`, worker 0 has terminated (its loop returned and its status is
`Dying`) and is still linked, and the next `get` pops and returns exactly
that worker — `Go` then discards it and allocates a fresh one, but `get`
itself does return the terminated node. -/
theorem claim_returns_dying_worker :
    Reach st7 ∧ st7.status 0 = statusDying ∧ st7.loop 0 = LoopSt.exited ∧
    Step st7 (Label.getPop 1 0) st8 ∧ st8.subs 1 = some (SubSt.holding 0) :=
  ⟨reach_st7, rfl, rfl, step78, rfl⟩

/-- C9 amended: an idle linked worker can terminate via the timer CAS, and a
terminated worker is never reused — although a later `get` may still pop its
node, the worker never executes any later work item (no `finish` step for a
`Dying` worker occurs in any later run; the claimer that pops it discards
it and moves on to a brand-new worker). -/
theorem idle_timeout_reclaim :
    (∀ s g, Reach s → g ∈ s.freeList → s.status g = statusIdle →
      ∃ s2, Step s (Label.timerOk g) s2 ∧ s2.loop g = LoopSt.exited ∧
        s2.status g = statusDying) ∧
    (∀ s s2 g ls, Reach s → s.status g = statusDying → Trace s ls s2 →
      ∀ sid, Label.finish g sid ∉ ls) := by
  constructor
  · intro s g hr hmem hst
    have I := inv_reach hr
    have hw := (I.idle_loc g (I.list_lt g hmem) hst).1
    exact ⟨_, Step.timerOk s g hw hst, upd_self _ _ _, upd_self _ _ _⟩
  · intro s s2 g ls hr hst htr sid
    exact no_finish_of_exited ls ((inv_reach hr).dying_ex g hst) htr sid

/-- Witness for the amended C9: the idle linked worker 0 at `st5`, and the
dying worker 0 at `st6`. -/
theorem idle_timeout_reclaim_w :
    (∃ s2, Step st5 (Label.timerOk 0) s2 ∧ s2.loop 0 = LoopSt.exited ∧
      s2.status 0 = statusDying) ∧
    (∀ sid, Label.finish 0 sid ∉ ([] : List Label)) :=
  ⟨idle_timeout_reclaim.1 st5 0 reach_st5 (by decide) rfl,
   idle_timeout_reclaim.2 st6 st6 0 [] reach_st6 rfl (Trace.nil st6)⟩

/-- C10: the free list is FIFO.  `get` always removes at the head and `put`
always appends at the tail, so any sequence of `put`/`get` operations with
no intervening allocation (every `get` finds a nonempty list, every `put`
hands back an unlinked worker) hands workers out in exactly the order the
abstract FIFO queue does — the order they were released. -/
theorem fifo_order : ∀ ops s l, reprB s l = true → l.Nodup → validOps l ops = true →
    (runPool s ops).2 = (runQueue l ops).2 ∧
    reprB (runPool s ops).1 (runQueue l ops).1 = true :=
  fun ops s l hr hnd hv =>
    ⟨(fifo_refines ops s l hr hnd hv).1, (fifo_refines ops s l hr hnd hv).2.1⟩

/-- Witness for C10: on the pool with free list `[1, 2]`, the run
get, put 5, get, get hands out 1, 2, 5 — FIFO order. -/
theorem fifo_order_w :
    (runPool sW [QOp.get, QOp.put 5, QOp.get, QOp.get]).2
      = (runQueue [1, 2] [QOp.get, QOp.put 5, QOp.get, QOp.get]).2 :=
  (fifo_order [QOp.get, QOp.put 5, QOp.get, QOp.get] sW [1, 2]
    (by decide) (by decide) (by decide)).1

end Gp